import Mathlib

/-!
Verification of the keyboard-shortcut, key-event-resolver, monitor-scheduler
and cooperative-event-loop core of the Allegro Sprite Editor GUI module
(src/src/main.cpp, the second source file of the repository).

The C++ code is shallowly embedded:

* `Shortcut` / the shortcut table (`std::vector<Shortcut*>`) becomes a
  `List Shortcut`; pointer identity of `Command*` objects is represented by
  the command name looked up in a registry (`CommandsModule` keeps one object
  per registered name, so two lookups of the same name yield the same
  pointer); `Tool*` identity is a `Nat`.
* `JAccel` accelerators live in the external jinete library; per the
  documented interface an accelerator is a set of (modifier-mask, key-code)
  alternatives and matches an event when some alternative equals the event
  data, so an accelerator is embedded as a `List Chord` and
  `jaccel_add_keys_from_string` as appending the parsed chords (parsing is
  delegated to jinete and is not part of this repository's core).
* The monitor scheduler (`Monitor`, `add_gui_monitor`, `remove_gui_monitor`,
  the `JM_TIMER` branch of `manager_msg_proc`) becomes an explicit state
  machine with logs of poll-callback and teardown-callback invocations.
* `gui_feedback`'s idle-flag handling keeps the C bitmask representation
  (`next_idle_flags` with `|`, `&`, `^`) as a `Nat`.
* `load_widget` / `find_widget` return `Except`; a thrown condition is the
  `.error` value, which by construction aborts only the computation that
  produced it.
-/

namespace AseGui

/-- One key chord: a modifier mask together with a key code.  The C++ side
keeps chords inside an opaque jinete `JAccel`; the documented matching rule
is equality of the modifier mask and of the key code. -/
structure Chord where
  mods : Nat
  key : Nat
deriving DecidableEq, Repr

/-- The data of a `JM_KEYPRESSED` message that accelerator matching consults
(`msg->any.shifts` and the key code). -/
structure KeyEvent where
  mods : Nat
  key : Nat
deriving DecidableEq, Repr

/-- `JAccel`: an ordered collection of alternative chords. -/
abbrev Accel := List Chord

/-- `jaccel_check`: an accelerator matches an event if some alternative's
modifier mask and key code equal the event's. -/
def jaccel_check (accel : Accel) (ev : KeyEvent) : Bool :=
  accel.any (fun c => c.mods == ev.mods && c.key == ev.key)

/-- `Params`: a structural key/value parameter set (commands/params.h
collaborator); `empty()` is emptiness and `==` is structural equality. -/
abbrev Params := List (String × String)

/-- The target of a `Shortcut`: the C++ `ShortcutType` tag plus the union
member it selects.  The command member is `Option String` because
`CommandsModule::instance()->get_command_by_name` can return NULL and the
code stores that result unchecked. -/
inductive ShortcutTarget where
  | executeCommand (command : Option String) (params : Params)
  | changeTool (tool : Nat)
deriving DecidableEq, Repr

/-- `struct Shortcut`: an accelerator plus its target.  (`params` is folded
into the target; in the C++ it is a separate field that is only meaningful
for `Shortcut_ExecuteCommand`.) -/
structure Shortcut where
  accel : Accel
  target : ShortcutTarget
deriving DecidableEq, Repr

/-- `Shortcut::is_key_pressed` (the `accel` member is always non-null: the
constructor calls `jaccel_new`). -/
def Shortcut.is_key_pressed (s : Shortcut) (ev : KeyEvent) : Bool :=
  jaccel_check s.accel ev

/-- `CommandsModule::instance()->get_command_by_name`: one command object per
registered name, NULL for an unknown name. -/
def lookupCommand (registry : List String) (name : String) : Option String :=
  if registry.contains name then some name else none

/-- The comparison performed by `get_keyboard_shortcut_for_command` on one
table entry: same type tag, same command pointer, and either the caller
passed no params and the entry's params are empty, or the params compare
structurally equal. -/
def isCmdShortcutFor (cmd : String) (params : Option Params) (s : Shortcut) : Bool :=
  match s.target with
  | .executeCommand c sp =>
      c == some cmd &&
        (match params with
         | none => sp.isEmpty
         | some p => sp == p)
  | .changeTool _ => false

/-- The comparison performed by `get_keyboard_shortcut_for_tool` on one
table entry. -/
def isToolShortcutFor (tool : Nat) (s : Shortcut) : Bool :=
  match s.target with
  | .executeCommand _ _ => false
  | .changeTool t => t == tool

/-- `get_keyboard_shortcut_for_command`: NULL when the command name is not
registered, otherwise the first matching table entry. -/
def get_keyboard_shortcut_for_command (registry : List String) (table : List Shortcut)
    (name : String) (params : Option Params) : Option Shortcut :=
  match lookupCommand registry name with
  | none => none
  | some cmd => table.find? (isCmdShortcutFor cmd params)

/-- `get_keyboard_shortcut_for_tool`: the first `ChangeTool` entry for the
tool. -/
def get_keyboard_shortcut_for_tool (table : List Shortcut) (tool : Nat) : Option Shortcut :=
  table.find? (isToolShortcutFor tool)

/-- `params ? params->clone() : new Params`: a fresh shortcut stores a clone
of the given params, or a new empty set when none were given. -/
def normParams : Option Params → Params
  | none => []
  | some p => p

/-- Common shape of both `add_keyboard_shortcut_to_*` functions once the
existence scan is known to run: update the first entry satisfying `p` by
appending the new chords to its accelerator (`Shortcut::add_shortcut`), or
`push_back` a fresh entry (whose accelerator starts empty, `jaccel_new`) and
append the chords to it.  Returns the new table and the returned
`shortcut->accel`. -/
def appendChords (p : Shortcut → Bool) (fresh : Shortcut) (chords : List Chord) :
    List Shortcut → List Shortcut × Accel
  | [] =>
      let s : Shortcut := { fresh with accel := fresh.accel ++ chords }
      ([s], s.accel)
  | s :: rest =>
      if p s then
        let s' : Shortcut := { s with accel := s.accel ++ chords }
        (s' :: rest, s'.accel)
      else
        let r := appendChords p fresh chords rest
        (s :: r.1, r.2)

/-- `add_keyboard_shortcut_to_execute_command`.  When the command name is
unknown, `get_keyboard_shortcut_for_command` returns NULL *before scanning
the table*, so a fresh entry is always created, and its `command` member is
the NULL result of the second `get_command_by_name` lookup. -/
def add_keyboard_shortcut_to_execute_command (registry : List String)
    (table : List Shortcut) (chords : List Chord) (name : String)
    (params : Option Params) : List Shortcut × Accel :=
  match lookupCommand registry name with
  | none =>
      let s : Shortcut := ⟨chords, .executeCommand none (normParams params)⟩
      (table ++ [s], s.accel)
  | some cmd =>
      appendChords (isCmdShortcutFor cmd params)
        ⟨[], .executeCommand (some cmd) (normParams params)⟩ chords table

/-- `add_keyboard_shortcut_to_change_tool`. -/
def add_keyboard_shortcut_to_change_tool (table : List Shortcut)
    (chords : List Chord) (tool : Nat) : List Shortcut × Accel :=
  appendChords (isToolShortcutFor tool) ⟨[], .changeTool tool⟩ chords table

/-- `get_accel_to_execute_command`. -/
def get_accel_to_execute_command (registry : List String) (table : List Shortcut)
    (name : String) (params : Option Params) : Option Accel :=
  (get_keyboard_shortcut_for_command registry table name params).map (·.accel)

/-- A shortcut-table operation (configuration loading binds commands and
tools in some order). -/
inductive BindOp where
  | bindCommand (chords : List Chord) (name : String) (params : Option Params)
  | bindTool (chords : List Chord) (tool : Nat)

/-- Run one bind operation, dropping the returned accelerator. -/
def runBindOp (registry : List String) (table : List Shortcut) : BindOp → List Shortcut
  | .bindCommand chords name params =>
      (add_keyboard_shortcut_to_execute_command registry table chords name params).1
  | .bindTool chords tool =>
      (add_keyboard_shortcut_to_change_tool table chords tool).1

/-- Run a sequence of bind operations. -/
def runBindOps (registry : List String) (table : List Shortcut) (ops : List BindOp) :
    List Shortcut :=
  ops.foldl (runBindOp registry) table

/-! ### Key-event resolver (`manager_msg_proc`, `JM_KEYPRESSED` branch) -/

/-- One child of the manager widget as the `ExecuteCommand` gate inspects it:
whether `jwindow_is_foreground` holds, whether `jwindow_is_desktop` holds,
and whether the child is `app_get_top_window()`. -/
structure ChildWin where
  foreground : Bool
  desktop : Bool
  isTopWindow : Bool
deriving DecidableEq, Repr

/-- `CommandId::screen_shot` (commands/commands.h collaborator). -/
def screenShotId : String := "screen_shot"

/-- Outcome of the `JM_KEYPRESSED` branch of `manager_msg_proc`.
`commandExecuted` is the only outcome that returns true (consumes the
event); `toolSelected` calls `select_tool` and then returns false;
`crash` marks a NULL-pointer dereference (an unbound tool in `tools_list`,
or a shortcut whose stored command pointer is NULL). -/
inductive DispatchResult where
  | noMatch
  | toolSelected (tool : Nat)
  | commandExecuted (command : String) (params : Params)
  | commandSuppressed (command : String)
  | crash
deriving DecidableEq, Repr

/-- The tool-cycling scan:
`for (i=0;i<j;i++) if (group[i]==current_tool && i+1<j) { select group[i+1]; break; }`.
Returns the group member following the current tool, provided one exists. -/
def cycleFind (current : Nat) : List Nat → Option Nat
  | t :: u :: rest => if t = current then some u else cycleFind current (u :: rest)
  | _ => none

/-- The `JI_LIST_FOR_EACH(widget->children, ...)` gate of the
`Shortcut_ExecuteCommand` case: stop suppressed at the first foreground
window, execute at the first child that is the desktop and the top window,
suppressed when the scan ends. -/
def execGate (cmd : String) (params : Params) : List ChildWin → DispatchResult
  | [] => .commandSuppressed cmd
  | c :: rest =>
    if c.foreground then .commandSuppressed cmd
    else if c.desktop && c.isTopWindow then .commandExecuted cmd params
    else execGate cmd params rest

/-- The matching-group construction of the `Shortcut_ChangeTool` case: the
tools of `tools_list`, in registration order, whose own registered shortcut
matches the event. -/
def matchingGroup (table : List Shortcut) (toolsList : List Nat) (ev : KeyEvent) :
    List Nat :=
  toolsList.filter (fun tl =>
    match get_keyboard_shortcut_for_tool table tl with
    | some ts => ts.is_key_pressed ev
    | none => false)

/-- The `JM_KEYPRESSED` branch of `manager_msg_proc`: first matching binding
in table order decides everything.  For a `ChangeTool` match the code
evaluates `get_keyboard_shortcut_for_tool(tools_list[i])->is_key_pressed(msg)`
for every `i < MAX_TOOLS` with no NULL check, so the branch dereferences
NULL exactly when some tool in `tools_list` has no binding (the group loop
has no early exit).  With `j >= 2` matches, the next group member after the
current tool is selected when one exists; otherwise `select_this_tool`
keeps the matched binding's tool. -/
def resolveKey (table : List Shortcut) (toolsList : List Nat) (currentTool : Nat)
    (children : List ChildWin) (ev : KeyEvent) : DispatchResult :=
  match table.find? (fun s => s.is_key_pressed ev) with
  | none => .noMatch
  | some s =>
    match s.target with
    | .changeTool tool =>
        if toolsList.all (fun tl => (get_keyboard_shortcut_for_tool table tl).isSome) then
          let group := matchingGroup table toolsList ev
          let sel := if 2 ≤ group.length then (cycleFind currentTool group).getD tool
                     else tool
          .toolSelected sel
        else .crash
    | .executeCommand c params =>
        match c with
        | none => .crash
        | some cmd =>
            if cmd = screenShotId then .commandExecuted cmd params
            else execGate cmd params children

/-! ### Cooperative event loop (`gui_feedback` idle-flag handling) -/

/-- External facts one `gui_feedback` iteration consults: the result of
`app_realloc_recent_list()` and the current sprite
(`CurrentSpriteReader`; `none` when there is no current sprite). -/
structure FeedbackEnv where
  reallocRecentOk : Bool
  currentSprite : Option Nat
deriving DecidableEq, Repr

/-- The observable state of the idle-flag machinery: the `next_idle_flags`
bitmask plus logs of the deferred actions performed
(`app_realloc_recent_list` attempts, successful rebuilds, and
`update_screen_for_sprite` calls with their sprite argument). -/
structure LoopState where
  flags : Nat
  rebuildAttempts : Nat
  recentRebuilds : Nat
  refreshes : List (Option Nat)
deriving DecidableEq, Repr

/-- `#define REBUILD_RECENT_LIST 2` -/
def REBUILD_RECENT_LIST : Nat := 2

/-- `#define REFRESH_FULL_SCREEN 4` -/
def REFRESH_FULL_SCREEN : Nat := 4

/-- `schedule_rebuild_recent_list`. -/
def schedule_rebuild_recent_list (st : LoopState) : LoopState :=
  { st with flags := st.flags ||| REBUILD_RECENT_LIST }

/-- `display_switch_in_callback` (the SWITCH_IN hook). -/
def display_switch_in_callback (st : LoopState) : LoopState :=
  { st with flags := st.flags ||| REFRESH_FULL_SCREEN }

/-- The idle-flag portion of `gui_feedback`.  The rebuild bit is cleared by
`next_idle_flags ^= REBUILD_RECENT_LIST` only when `app_realloc_recent_list()`
returns true; the refresh bit is cleared unconditionally, after which
`update_screen_for_sprite` runs on the current sprite.  (`rec_screen_poll`
and the double-buffer blit that follow touch none of the modeled state.) -/
def gui_feedback (env : FeedbackEnv) (st : LoopState) : LoopState :=
  let st1 :=
    if st.flags &&& REBUILD_RECENT_LIST ≠ 0 then
      let a := { st with rebuildAttempts := st.rebuildAttempts + 1 }
      if env.reallocRecentOk then
        { a with recentRebuilds := a.recentRebuilds + 1,
                 flags := a.flags ^^^ REBUILD_RECENT_LIST }
      else a
    else st
  if st1.flags &&& REFRESH_FULL_SCREEN ≠ 0 then
    { st1 with flags := st1.flags ^^^ REFRESH_FULL_SCREEN,
               refreshes := st1.refreshes ++ [env.currentSprite] }
  else st1

/-! ### Widget loading (`load_widget`, `find_widget`) -/

/-- External world `load_widget`/`find_widget` consult: which paths `exists`
on disk, which (path, widget-name) pairs `ji_load_widget` can load (a missing
pair is jinete returning NULL), and which (widget, child-name) pairs
`jwidget_find_name` resolves.  Widgets are pointer identities (`Nat`);
NULL is represented by a failed lookup, so an `.ok` result is non-null by
construction. -/
structure WidgetEnv where
  existingPaths : List String
  loadedWidgets : List ((String × String) × Nat)
  childNames : List ((Nat × String) × Nat)

/-- First-match association lookup (keys compared structurally). -/
def lookupPair {α : Type} [DecidableEq α] (l : List (α × Nat)) (k : α) : Option Nat :=
  (l.find? (fun e => e.1 = k)).map (·.2)

/-- The thrown conditions: `widget_file_not_found` and `widget_not_found`. -/
inductive WidgetError where
  | fileNotFound (filename : String)
  | widgetNotFound (name : String)
deriving DecidableEq, Repr

/-- `filename_in_datadir` (core/dirs.h collaborator): the path inside the
data directory. -/
def filename_in_datadir (s : String) : String := "datadir/" ++ s

/-- The directory list `load_widget` builds: the filename itself, then
`jids/<filename>` inside the data directory. -/
def widgetSearchPaths (filename : String) : List String :=
  [filename, filename_in_datadir ("jids/" ++ filename)]

/-- `load_widget`: take the first searched path that exists (else throw
`widget_file_not_found`), then `ji_load_widget` it (a NULL result throws
`widget_not_found`). -/
def load_widget (env : WidgetEnv) (filename name : String) : Except WidgetError Nat :=
  match (widgetSearchPaths filename).find? (fun p => env.existingPaths.contains p) with
  | none => .error (.fileNotFound filename)
  | some buf =>
      match lookupPair env.loadedWidgets (buf, name) with
      | none => .error (.widgetNotFound name)
      | some w => .ok w

/-- `find_widget`: `jwidget_find_name`, throwing `widget_not_found` on NULL. -/
def find_widget (env : WidgetEnv) (widget : Nat) (name : String) :
    Except WidgetError Nat :=
  match lookupPair env.childNames (widget, name) with
  | none => .error (.widgetNotFound name)
  | some child => .ok child

/-! ### Monitor scheduler
(`Monitor`, `add_gui_monitor`, `remove_gui_monitor`, and the `JM_TIMER`
branch of `manager_msg_proc`). -/

/-- `struct Monitor`: pointer identity is `id`; `proc`, `free` and `data`
are opaque, so only the `lock` and `deleted` flags are carried.  A teardown
(`Monitor::~Monitor`, which invokes the `free` callback) is recorded in the
scheduler log instead. -/
structure Mon where
  id : Nat
  lock : Bool
  deleted : Bool
deriving DecidableEq, Repr

/-- The scheduler state: the `monitors` list, monitors erased from the list
while locked but still referenced by the running `JM_TIMER` loop
(`detached`), the `monitor_timer` id (`none` is `-1`) with the manager's
next free timer id (`timerSeq`), whether the timer is running, the next
fresh `Monitor*` identity, and logs of poll-callback invocations (`polled`)
and teardown-callback invocations (`torndown`). -/
structure Sched where
  monitors : List Mon
  detached : List Mon
  timerId : Option Nat
  timerSeq : Nat
  timerRunning : Bool
  nextId : Nat
  polled : List Nat
  torndown : List Nat
deriving Repr

/-- The identities in the active monitor list. -/
def monIds (st : Sched) : List Nat := st.monitors.map (·.id)

/-- The identities of detached (pending-delete) monitors. -/
def detIds (st : Sched) : List Nat := st.detached.map (·.id)

/-- `monitors->erase(it)` where `it = std::find(...)`: remove the first
monitor with the given identity. -/
def eraseById : List Mon → Nat → List Mon
  | [], _ => []
  | m :: rest, mid => if m.id = mid then rest else m :: eraseById rest mid

/-- `remove_gui_monitor`: find the monitor (the code asserts it is present;
an absent handle is modeled as a no-op).  Not locked: destroy now (teardown
fires).  Locked: set `deleted` and detach; the timer loop destroys it after
the callback returns.  Either way erase it from the list, and stop the
timer when the list became empty. -/
def remove_gui_monitor (st : Sched) (mid : Nat) : Sched :=
  match st.monitors.find? (fun m => m.id = mid) with
  | none => st
  | some m =>
    let st1 :=
      if m.lock = false then { st with torndown := st.torndown ++ [mid] }
      else { st with detached := st.detached ++ [{ m with deleted := true }] }
    let ms := eraseById st1.monitors mid
    { st1 with monitors := ms,
               timerRunning := if ms.isEmpty then false else st1.timerRunning }

/-- `add_gui_monitor`: push a fresh unlocked monitor, lazily allocate the
timer id (`jmanager_add_timer`) on the first-ever registration, and start
the timer. -/
def add_gui_monitor (st : Sched) : Sched :=
  let m : Mon := ⟨st.nextId, false, false⟩
  let st1 := { st with monitors := st.monitors ++ [m], nextId := st.nextId + 1 }
  let st2 :=
    if st1.timerId.isSome then st1
    else { st1 with timerId := some st1.timerSeq, timerSeq := st1.timerSeq + 1 }
  { st2 with timerRunning := true }

/-- Set the `lock` flag of the monitor with the given identity. -/
def setLock (st : Sched) (mid : Nat) (b : Bool) : Sched :=
  { st with monitors := st.monitors.map (fun m => if m.id = mid then { m with lock := b } else m) }

/-- The `next` pointer snapshot: the identity of the list element following
the first element with identity `mid`. -/
def nextAfter : List Mon → Nat → Option Nat
  | [], _ => none
  | m :: rest, mid => if m.id = mid then rest.head?.map (·.id) else nextAfter rest mid

/-- The effect of one poll callback on the scheduler: the
`remove_gui_monitor` calls it makes, in order.  (Real callbacks poll file
operations; their only interaction with the scheduler state is removal,
typically of themselves.) -/
def runRemovals (reqs : List Nat) (st : Sched) : Sched :=
  reqs.foldl remove_gui_monitor st

/-- The tail of one monitor's visit: `monitor->lock = false;
if (monitor->deleted) delete monitor`.  If the monitor is still listed its
lock is cleared; otherwise it was erased (and detached, `deleted` set) by a
removal issued from its own callback, and it is destroyed now — its
teardown runs. -/
def pollFinish (mid : Nat) (b : Sched) : Sched :=
  if (b.monitors.find? (fun m' => m'.id = mid)).isSome then setLock b mid false
  else
    match b.detached.find? (fun d => d.id = mid) with
    | some d =>
        if d.deleted then
          { b with detached := eraseById b.detached mid,
                   torndown := b.torndown ++ [mid] }
        else b
    | none => b

/-- One unlocked monitor's visit during the `JM_TIMER` iteration: set
`lock`, invoke the poll callback (logging it and applying its removal
requests), then `pollFinish`. -/
def tickStep (procs : Nat → List Nat) (mid : Nat) (st : Sched) : Sched :=
  pollFinish mid
    (runRemovals (procs mid)
      { setLock st mid true with polled := (setLock st mid true).polled ++ [mid] })

/-- One pass of the `JM_TIMER` iteration, cursor at the monitor with
identity in the second argument.  Per the code: snapshot `next`, skip a
locked monitor, otherwise run `tickStep`.  A cursor identity no longer in
the list means the callback erased the very node the snapshot points at —
undefined behavior in the C++ (`std::list` iterator invalidation); the
model stops the iteration there.  Fuel only bounds recursion; callbacks
cannot add monitors, so it never runs out. -/
def tickVisit (procs : Nat → List Nat) : Nat → Option Nat → Sched → Sched
  | 0, _, st => st
  | _ + 1, none, st => st
  | fuel + 1, some mid, st =>
    match st.monitors.find? (fun m => m.id = mid) with
    | none => st
    | some m =>
      if m.lock then tickVisit procs fuel (nextAfter st.monitors mid) st
      else tickVisit procs fuel (nextAfter st.monitors mid) (tickStep procs mid st)

/-- The whole `JM_TIMER` branch: iterate from the head of the list, then
stop the timer if no monitors remain. -/
def mgr_timer_tick (procs : Nat → List Nat) (st : Sched) : Sched :=
  let st1 := tickVisit procs (st.monitors.length + 1) (st.monitors.head?.map (·.id)) st
  { st1 with timerRunning := if st1.monitors.isEmpty then false else st1.timerRunning }

/-- A top-level scheduler event: a registration, a removal request from
outside any poll callback, or a timer tick whose poll callbacks issue the
given removal requests. -/
inductive GuiOp where
  | add : GuiOp
  | remove : Nat → GuiOp
  | tick : (Nat → List Nat) → GuiOp

/-- Run one scheduler event. -/
def runOp (st : Sched) : GuiOp → Sched
  | .add => add_gui_monitor st
  | .remove mid => remove_gui_monitor st mid
  | .tick procs => mgr_timer_tick procs st

/-- Run a sequence of scheduler events. -/
def runOps (st : Sched) (ops : List GuiOp) : Sched :=
  ops.foldl runOp st

/-- The state after `init_module_gui`: empty monitor list,
`monitor_timer = -1`, timer not running. -/
def initSched : Sched := ⟨[], [], none, 0, false, 0, [], []⟩

/-- All monitor identities the scheduler still references: the active list
plus any detached (pending-delete) object held by the running tick. -/
def allIds (st : Sched) : List Nat := monIds st ++ detIds st

/-- Scheduler invariant, relative to the identity `mid` of the monitor (if
any) whose poll callback is currently executing: only that monitor may be
locked, no listed monitor is marked deleted, detached objects are exactly
pending-deletes of the running monitor, identities are distinct and below
the allocation counter, and the teardown log holds exactly one entry for
every allocated-and-gone identity, none for live or never-allocated ones. -/
structure RINVS (mid : Nat) (st : Sched) : Prop where
  locks : ∀ m ∈ st.monitors, m.deleted = false ∧ (m.lock = true ↔ m.id = mid)
  det : ∀ d ∈ st.detached, d.id = mid ∧ d.deleted = true
  nodup : (allIds st).Nodup
  bound : ∀ i ∈ allIds st, i < st.nextId
  countMem : ∀ i ∈ allIds st, st.torndown.count i = 0
  countGone : ∀ i, i < st.nextId → i ∉ allIds st → st.torndown.count i = 1
  countFresh : ∀ i, st.nextId ≤ i → st.torndown.count i = 0

/-- The top-level scheduler invariant (between events no callback is
running: instantiating the running identity with the never-allocated
`st.nextId` forces every monitor unlocked and the detached list empty). -/
def INV (st : Sched) : Prop := RINVS st.nextId st

/-- Removal has been requested for an allocated monitor: it is gone from
the active list and from the detached slot. -/
def absentP (mid : Nat) (st : Sched) : Prop :=
  mid < st.nextId ∧ mid ∉ monIds st ∧ mid ∉ detIds st

/-- The recurring monitor timer runs exactly when monitors are registered. -/
def TINV (st : Sched) : Prop :=
  (st.monitors = [] → st.timerRunning = false)
  ∧ (st.monitors ≠ [] → st.timerRunning = true)

/-- Which bind operations name only registered commands. -/
def opRegistered (registry : List String) : BindOp → Prop
  | .bindCommand _ name _ => name ∈ registry
  | .bindTool _ _ => True

/-! ## Claim C10: widget loading error conditions -/

/-- C10: `load_widget` throws the file-not-found condition exactly when no
searched directory contains the layout file, and the widget-not-found
condition exactly when a file was found but `ji_load_widget` returns NULL
for the requested name; `find_widget` throws widget-not-found exactly when
the named child does not resolve, and otherwise returns the (non-null)
child.  Thrown conditions are `.error` values of `Except`, which abort only
the computation that produced them. -/
theorem c10_widget_errors (env : WidgetEnv) (filename name : String) (widget : Nat) :
    (load_widget env filename name = .error (.fileNotFound filename) ↔
      ∀ p ∈ widgetSearchPaths filename, p ∉ env.existingPaths)
  ∧ (load_widget env filename name = .error (.widgetNotFound name) ↔
      ∃ buf, (widgetSearchPaths filename).find? (fun p => env.existingPaths.contains p)
                = some buf
           ∧ lookupPair env.loadedWidgets (buf, name) = none)
  ∧ (find_widget env widget name = .error (.widgetNotFound name) ↔
      lookupPair env.childNames (widget, name) = none)
  ∧ (∀ w, find_widget env widget name = .ok w ↔
      lookupPair env.childNames (widget, name) = some w) := by
  refine ⟨?_, ?_, ?_, ?_⟩
  · unfold load_widget
    cases h : (widgetSearchPaths filename).find? (fun p => env.existingPaths.contains p) with
    | none =>
        simp only [List.find?_eq_none] at h
        simpa using fun p hp => by simpa using h p hp
    | some buf =>
        have hmem := List.mem_of_find?_eq_some h
        have hp := List.find?_some h
        constructor
        · intro hld
          cases h2 : lookupPair env.loadedWidgets (buf, name) <;> simp [h2] at hld
        · intro hall
          exact absurd (by simpa using hp) (by simpa using hall buf hmem)
  · unfold load_widget
    cases h : (widgetSearchPaths filename).find? (fun p => env.existingPaths.contains p) with
    | none => simp [h]
    | some buf =>
        cases h2 : lookupPair env.loadedWidgets (buf, name) with
        | none => simp [h, h2]
        | some w => simp [h2]
  · unfold find_widget
    cases h2 : lookupPair env.childNames (widget, name) with
    | none => simp [h2]
    | some w => simp [h2]
  · intro w
    unfold find_widget
    cases h2 : lookupPair env.childNames (widget, name) with
    | none => simp [h2]
    | some c => simp [h2]

/-! ## Idle-flag bit arithmetic helpers -/

theorem and2_eq (x : Nat) : x &&& 2 = if x.testBit 1 then 2 else 0 := by
  have h := Nat.and_two_pow x 1
  cases hx : x.testBit 1 <;> simp [hx] at h <;> simpa using h

theorem and4_eq (x : Nat) : x &&& 4 = if x.testBit 2 then 4 else 0 := by
  have h := Nat.and_two_pow x 2
  cases hx : x.testBit 2 <;> simp [hx] at h <;> simpa using h

theorem testBit_xor2_one (x : Nat) : (x ^^^ 2).testBit 1 = !x.testBit 1 := by
  simp [Nat.testBit_xor, show Nat.testBit 2 1 = true from by decide]

theorem testBit_xor2_two (x : Nat) : (x ^^^ 2).testBit 2 = x.testBit 2 := by
  simp [Nat.testBit_xor, show Nat.testBit 2 2 = false from by decide]

theorem testBit_xor4_two (x : Nat) : (x ^^^ 4).testBit 2 = !x.testBit 2 := by
  simp [Nat.testBit_xor, show Nat.testBit 4 2 = true from by decide]

theorem testBit_xor4_one (x : Nat) : (x ^^^ 4).testBit 1 = x.testBit 1 := by
  simp [Nat.testBit_xor, show Nat.testBit 4 1 = false from by decide]

theorem testBit_or4_two (x : Nat) : (x ||| 4).testBit 2 = true := by
  simp [Nat.testBit_or, show Nat.testBit 4 2 = true from by decide]

theorem testBit_or4_one (x : Nat) : (x ||| 4).testBit 1 = x.testBit 1 := by
  simp [Nat.testBit_or, show Nat.testBit 4 1 = false from by decide]

/-- Full characterization of one `gui_feedback` iteration's effect on the
idle flags and the deferred-action logs, in terms of the observed bits. -/
theorem gui_feedback_spec (env : FeedbackEnv) (st : LoopState) :
    (gui_feedback env st).flags.testBit 1
        = (st.flags.testBit 1 && !env.reallocRecentOk)
  ∧ (gui_feedback env st).flags.testBit 2 = false
  ∧ (gui_feedback env st).rebuildAttempts
        = (if st.flags.testBit 1 then st.rebuildAttempts + 1 else st.rebuildAttempts)
  ∧ (gui_feedback env st).recentRebuilds
        = (if st.flags.testBit 1 && env.reallocRecentOk
           then st.recentRebuilds + 1 else st.recentRebuilds)
  ∧ (gui_feedback env st).refreshes
        = (if st.flags.testBit 2
           then st.refreshes ++ [env.currentSprite] else st.refreshes) := by
  unfold gui_feedback
  simp only [REBUILD_RECENT_LIST, REFRESH_FULL_SCREEN, and2_eq, and4_eq]
  cases h1 : st.flags.testBit 1 <;> cases h2 : st.flags.testBit 2 <;>
    cases hr : env.reallocRecentOk <;>
      simp [h1, h2, hr, testBit_xor2_one, testBit_xor2_two, testBit_xor4_two,
            testBit_xor4_one,
            show Nat.testBit 4 1 = false from by decide,
            show Nat.testBit 4 2 = true from by decide,
            show Nat.testBit 2 2 = false from by decide,
            show Nat.testBit 2 1 = true from by decide]

/-! ## Claim C5: idle-flag clearing -/

/-- C5 counterexample: with `REBUILD_RECENT_LIST` observed set but
`app_realloc_recent_list()` returning false, the iteration does **not**
clear the bit (the claim says every observed-set bit is cleared exactly
once during that iteration). -/
theorem c5_counterexample :
    (gui_feedback ⟨false, none⟩ ⟨2, 0, 0, []⟩).flags &&& REBUILD_RECENT_LIST ≠ 0
  ∧ (gui_feedback ⟨false, none⟩ ⟨2, 0, 0, []⟩).flags = 2 := by decide

/-- C5 (amended): in every iteration observing `REBUILD_RECENT_LIST` set,
the rebuild is attempted exactly once and the bit is cleared exactly when
`app_realloc_recent_list()` succeeds (on failure it stays set and is
retried on a later iteration); `REFRESH_FULL_SCREEN` observed set is
cleared unconditionally, with exactly one refresh performed, and is always
clear at the end of the iteration. -/
theorem c5_idle_flags_amended (env : FeedbackEnv) (st : LoopState) :
    (st.flags &&& REBUILD_RECENT_LIST ≠ 0 →
        (gui_feedback env st).rebuildAttempts = st.rebuildAttempts + 1
      ∧ ((gui_feedback env st).flags &&& REBUILD_RECENT_LIST = 0 ↔
           env.reallocRecentOk = true))
  ∧ (st.flags &&& REBUILD_RECENT_LIST = 0 →
        (gui_feedback env st).rebuildAttempts = st.rebuildAttempts
      ∧ (gui_feedback env st).flags &&& REBUILD_RECENT_LIST = 0)
  ∧ (st.flags &&& REFRESH_FULL_SCREEN ≠ 0 →
        (gui_feedback env st).refreshes = st.refreshes ++ [env.currentSprite])
  ∧ (st.flags &&& REFRESH_FULL_SCREEN = 0 →
        (gui_feedback env st).refreshes = st.refreshes)
  ∧ (gui_feedback env st).flags &&& REFRESH_FULL_SCREEN = 0 := by
  obtain ⟨hb1, hb2, ha, hrb, href⟩ := gui_feedback_spec env st
  simp only [REBUILD_RECENT_LIST, REFRESH_FULL_SCREEN]
  refine ⟨?_, ?_, ?_, ?_, ?_⟩
  · intro h
    rw [and2_eq] at h
    by_cases ht : st.flags.testBit 1
    · refine ⟨by rw [ha, if_pos ht], ?_⟩
      rw [and2_eq, hb1, ht]
      cases hr : env.reallocRecentOk <;> simp [hr]
    · simp [ht] at h
  · intro h
    rw [and2_eq] at h
    by_cases ht : st.flags.testBit 1
    · simp [ht] at h
    · exact ⟨by rw [ha, if_neg ht], by rw [and2_eq, hb1]; simp [ht]⟩
  · intro h
    rw [and4_eq] at h
    by_cases ht : st.flags.testBit 2
    · rw [href, if_pos ht]
    · simp [ht] at h
  · intro h
    rw [and4_eq] at h
    by_cases ht : st.flags.testBit 2
    · simp [ht] at h
    · rw [href, if_neg ht]
  · rw [and4_eq, hb2]
    simp

/-- C5 amended-claim witness at a concrete state: both bits set, rebuild
succeeding. -/
theorem c5_idle_flags_amended_witness :
    (gui_feedback ⟨true, some 5⟩ ⟨6, 0, 0, []⟩).rebuildAttempts = 0 + 1
  ∧ ((gui_feedback ⟨true, some 5⟩ ⟨6, 0, 0, []⟩).flags &&& REBUILD_RECENT_LIST = 0 ↔
       true = true)
  ∧ (gui_feedback ⟨true, some 5⟩ ⟨6, 0, 0, []⟩).refreshes = [] ++ [some 5] := by
  have h := c5_idle_flags_amended ⟨true, some 5⟩ ⟨6, 0, 0, []⟩
  exact ⟨(h.1 (by decide)).1, (h.1 (by decide)).2, h.2.2.1 (by decide)⟩

/-! ## Claim C8: REFRESH_FULL_SCREEN causes exactly one refresh pass -/

/-- C8: setting `REFRESH_FULL_SCREEN` (as `display_switch_in_callback`
does) makes the next `gui_feedback` iteration perform exactly one
`update_screen_for_sprite` pass on the current sprite (`none` selects the
default palette inside that call); the flag is clear after the iteration,
and a further iteration performs no additional refresh. -/
theorem c8_refresh_pass (env env2 : FeedbackEnv) (st : LoopState) :
    (gui_feedback env (display_switch_in_callback st)).refreshes
        = (display_switch_in_callback st).refreshes ++ [env.currentSprite]
  ∧ (gui_feedback env (display_switch_in_callback st)).flags &&& REFRESH_FULL_SCREEN = 0
  ∧ (gui_feedback env2 (gui_feedback env (display_switch_in_callback st))).refreshes
        = (gui_feedback env (display_switch_in_callback st)).refreshes := by
  obtain ⟨hb1, hb2, ha, hrb, href⟩ := gui_feedback_spec env (display_switch_in_callback st)
  obtain ⟨_, _, _, _, href2⟩ :=
    gui_feedback_spec env2 (gui_feedback env (display_switch_in_callback st))
  have hset : (display_switch_in_callback st).flags.testBit 2 = true :=
    testBit_or4_two st.flags
  refine ⟨?_, ?_, ?_⟩
  · rw [href, if_pos hset]
  · simp only [REFRESH_FULL_SCREEN]
    rw [and4_eq, hb2]
    simp
  · rw [href2, hb2]
    simp

/-! ## Shortcut-table lemmas -/

theorem lookupCommand_of_mem {registry : List String} {name : String}
    (h : name ∈ registry) : lookupCommand registry name = some name := by
  simp only [lookupCommand, if_pos (by simpa using List.elem_iff.mpr h :
    registry.contains name = true)]

/-- Changing only the accelerator of an entry does not change whether the
table-scan predicates accept it (they inspect the target only). -/
theorem isCmdShortcutFor_accel (cmd : String) (params : Option Params)
    (s : Shortcut) (a : Accel) :
    isCmdShortcutFor cmd params { s with accel := a } = isCmdShortcutFor cmd params s := rfl

theorem isToolShortcutFor_accel (tool : Nat) (s : Shortcut) (a : Accel) :
    isToolShortcutFor tool { s with accel := a } = isToolShortcutFor tool s := rfl

/-- The command-scan predicate accepts exactly the entries whose target is
`executeCommand` of the looked-up command with the normalized params. -/
theorem isCmdShortcutFor_iff (cmd : String) (params : Option Params) (s : Shortcut) :
    isCmdShortcutFor cmd params s = true ↔
      s.target = .executeCommand (some cmd) (normParams params) := by
  cases s with
  | mk accel target =>
    cases target with
    | executeCommand c sp =>
        cases params with
        | none => simp [isCmdShortcutFor, normParams, List.isEmpty_iff, and_comm]
        | some p => simp [isCmdShortcutFor, normParams, and_comm]
    | changeTool t => simp [isCmdShortcutFor]

/-- The tool-scan predicate accepts exactly the `changeTool` entries for the
tool. -/
theorem isToolShortcutFor_iff (tool : Nat) (s : Shortcut) :
    isToolShortcutFor tool s = true ↔ s.target = .changeTool tool := by
  cases s with
  | mk accel target =>
    cases target with
    | executeCommand c sp => simp [isToolShortcutFor]
    | changeTool t => simp [isToolShortcutFor]

/-- The accelerator returned by an append-or-create always ends with the
newly added chords. -/
theorem appendChords_accel_suffix (p : Shortcut → Bool) (fresh : Shortcut)
    (chords : List Chord) :
    ∀ l : List Shortcut, ∃ X, (appendChords p fresh chords l).2 = X ++ chords := by
  intro l
  induction l with
  | nil => exact ⟨fresh.accel, rfl⟩
  | cons s rest ih =>
      by_cases h : p s = true
      · exact ⟨s.accel, by simp [appendChords, h]⟩
      · obtain ⟨X, hX⟩ := ih
        exact ⟨X, by simp [appendChords, h, hX]⟩

/-- When the scan finds an existing entry, the append-or-create keeps the
table length and returns that entry's accelerator extended by the new
chords. -/
theorem appendChords_of_find (p : Shortcut → Bool) (fresh : Shortcut)
    (chords : List Chord) :
    ∀ (l : List Shortcut) (s : Shortcut), l.find? p = some s →
      (appendChords p fresh chords l).1.length = l.length
      ∧ (appendChords p fresh chords l).2 = s.accel ++ chords := by
  intro l
  induction l with
  | nil => intro s h; simp at h
  | cons a rest ih =>
      intro s h
      by_cases ha : p a = true
      · rw [List.find?_cons_of_pos _ ha] at h
        cases h
        simp [appendChords, ha]
      · rw [List.find?_cons_of_neg _ (by simpa using ha)] at h
        obtain ⟨h1, h2⟩ := ih s h
        simp [appendChords, ha, h1, h2]

/-- After an append-or-create whose fresh entry satisfies the predicate,
the scan finds an entry carrying exactly the returned accelerator. -/
theorem appendChords_find_back (p : Shortcut → Bool) (fresh : Shortcut)
    (chords : List Chord)
    (hp : ∀ (s : Shortcut) (a : Accel), p { s with accel := a } = p s)
    (hfr : p fresh = true) :
    ∀ l : List Shortcut, ∃ s, (appendChords p fresh chords l).1.find? p = some s
      ∧ s.accel = (appendChords p fresh chords l).2 := by
  intro l
  induction l with
  | nil =>
      refine ⟨{ fresh with accel := fresh.accel ++ chords }, ?_, rfl⟩
      have : p { fresh with accel := fresh.accel ++ chords } = true := by
        rw [hp]; exact hfr
      simp [appendChords, List.find?_cons_of_pos _ this]
  | cons a rest ih =>
      by_cases ha : p a = true
      · refine ⟨{ a with accel := a.accel ++ chords }, ?_, by simp [appendChords, ha]⟩
        have : p { a with accel := a.accel ++ chords } = true := by rw [hp]; exact ha
        simp [appendChords, ha, List.find?_cons_of_pos _ this]
      · have ha2 : p a = false := by simpa using ha
        obtain ⟨s, h1, h2⟩ := ih
        refine ⟨s, ?_, by simpa [appendChords, ha2] using h2⟩
        simp only [appendChords, ha2]
        simp only [Bool.false_eq_true, if_false]
        rw [List.find?_cons_of_neg _ (by simp [ha2])]
        exact h1

/-- The targets after an append-or-create: unchanged when an entry
satisfying the predicate existed, otherwise extended by the fresh target
(and then no old entry satisfied the predicate). -/
theorem appendChords_targets (p : Shortcut → Bool) (fresh : Shortcut)
    (chords : List Chord) :
    ∀ l : List Shortcut,
      ((appendChords p fresh chords l).1.map (·.target) = l.map (·.target)
        ∧ ∃ s ∈ l, p s = true)
      ∨ ((appendChords p fresh chords l).1.map (·.target)
            = l.map (·.target) ++ [fresh.target]
        ∧ ∀ s ∈ l, p s = false) := by
  intro l
  induction l with
  | nil => exact Or.inr ⟨by simp [appendChords], by simp⟩
  | cons a rest ih =>
      by_cases ha : p a = true
      · exact Or.inl ⟨by simp [appendChords, ha], ⟨a, by simp, ha⟩⟩
      · rcases ih with ⟨h1, s, hs, hps⟩ | ⟨h1, hall⟩
        · exact Or.inl ⟨by simp [appendChords, ha, h1], ⟨s, by simp [hs], hps⟩⟩
        · refine Or.inr ⟨by simp [appendChords, ha, h1], ?_⟩
          intro s hs
          rcases List.mem_cons.mp hs with rfl | hs
          · simpa using ha
          · exact hall s hs

/-- Append-or-create preserves distinctness of targets when the predicate
characterizes target-equality with the fresh entry. -/
theorem appendChords_nodup (p : Shortcut → Bool) (fresh : Shortcut)
    (chords : List Chord)
    (hiff : ∀ s : Shortcut, p s = true ↔ s.target = fresh.target)
    (l : List Shortcut) (h : (l.map (·.target)).Nodup) :
    ((appendChords p fresh chords l).1.map (·.target)).Nodup := by
  rcases appendChords_targets p fresh chords l with ⟨h1, _⟩ | ⟨h1, hall⟩
  · rwa [h1]
  · rw [h1]
    have hnot : fresh.target ∉ l.map (·.target) := by
      intro hmem
      obtain ⟨s, hs, hst⟩ := List.mem_map.mp hmem
      have := (hiff s).mpr hst
      rw [hall s hs] at this
      exact Bool.false_ne_true this
    simp [List.nodup_append, h, hnot]

/-- One registered bind operation preserves distinctness of binding
targets. -/
theorem runBindOp_nodup (registry : List String) (table : List Shortcut)
    (op : BindOp) (hop : opRegistered registry op)
    (h : (table.map (·.target)).Nodup) :
    ((runBindOp registry table op).map (·.target)).Nodup := by
  cases op with
  | bindCommand chords name params =>
      have hname : name ∈ registry := hop
      simp only [runBindOp, add_keyboard_shortcut_to_execute_command,
                 lookupCommand_of_mem hname]
      exact appendChords_nodup _ _ _ (fun s => isCmdShortcutFor_iff name params s) table h
  | bindTool chords tool =>
      simp only [runBindOp, add_keyboard_shortcut_to_change_tool]
      exact appendChords_nodup _ _ _ (fun s => isToolShortcutFor_iff tool s) table h

/-! ## Claim C4: shortcut-table deduplication invariant -/

/-- C4 counterexample: binding the same unregistered command name twice
creates two bindings with the same (command, parameters) pair — the
claimed "at most one `ExecuteCommand` binding per pair after any sequence
of bind operations" fails, because `get_keyboard_shortcut_for_command`
returns NULL for an unknown name before scanning the table. -/
theorem c4_counterexample :
    ¬ ((runBindOps [] [] [.bindCommand [⟨0,3⟩] "foo" none,
                          .bindCommand [⟨0,4⟩] "foo" none]).countP
         (fun s => s.target == .executeCommand none []) ≤ 1) := by decide

/-- C4 (amended): after any sequence of bind operations **whose command
names are all registered**, the table holds at most one `ExecuteCommand`
binding per (command, parameters) pair — parameters structural, absent
parameters equal to the empty set — and at most one `ChangeTool` binding
per tool (equivalently: all binding targets are pairwise distinct).
Re-binding a registered (command, parameters) pair appends the new chords
to the existing binding, leaves the table size unchanged, and both the
previous and the new chords are alternatives of the resulting
accelerator. -/
theorem c4_table_invariant_amended (registry : List String) (ops : List BindOp)
    (table : List Shortcut) (chords1 chords2 : List Chord) (name : String)
    (params : Option Params) :
    ((∀ op ∈ ops, opRegistered registry op) →
        ((runBindOps registry [] ops).map (·.target)).Nodup)
  ∧ (name ∈ registry →
        (add_keyboard_shortcut_to_execute_command registry
            (add_keyboard_shortcut_to_execute_command registry table chords1 name params).1
            chords2 name params).1.length
          = (add_keyboard_shortcut_to_execute_command registry table chords1 name
              params).1.length
      ∧ (add_keyboard_shortcut_to_execute_command registry
            (add_keyboard_shortcut_to_execute_command registry table chords1 name params).1
            chords2 name params).2
          = (add_keyboard_shortcut_to_execute_command registry table chords1 name params).2
              ++ chords2
      ∧ ∀ c ∈ chords1 ++ chords2,
          c ∈ (add_keyboard_shortcut_to_execute_command registry
                (add_keyboard_shortcut_to_execute_command registry table chords1 name
                  params).1 chords2 name params).2) := by
  constructor
  · intro hall
    have : ∀ l : List BindOp, (∀ op ∈ l, opRegistered registry op) →
        ∀ t : List Shortcut, (t.map (·.target)).Nodup →
        ((runBindOps registry t l).map (·.target)).Nodup := by
      intro l
      induction l with
      | nil => intro _ t ht; simpa [runBindOps] using ht
      | cons op rest ih =>
          intro hl t ht
          have h1 := runBindOp_nodup registry t op (hl op (by simp)) ht
          have h2 := ih (fun o ho => hl o (by simp [ho])) (runBindOp registry t op) h1
          simpa [runBindOps] using h2
    exact this ops hall [] (by simp)
  · intro hname
    simp only [add_keyboard_shortcut_to_execute_command, lookupCommand_of_mem hname]
    obtain ⟨s, hfind, haccel⟩ :=
      appendChords_find_back (isCmdShortcutFor name params)
        ⟨[], .executeCommand (some name) (normParams params)⟩ chords1
        (fun s a => isCmdShortcutFor_accel name params s a)
        ((isCmdShortcutFor_iff name params _).mpr rfl) table
    obtain ⟨hlen, hacc2⟩ :=
      appendChords_of_find (isCmdShortcutFor name params)
        ⟨[], .executeCommand (some name) (normParams params)⟩ chords2 _ s hfind
    obtain ⟨X, hX⟩ :=
      appendChords_accel_suffix (isCmdShortcutFor name params)
        ⟨[], .executeCommand (some name) (normParams params)⟩ chords1 table
    refine ⟨hlen, by rw [hacc2, haccel], ?_⟩
    intro c hc
    rw [hacc2, haccel]
    rcases List.mem_append.mp hc with hc1 | hc2
    · exact List.mem_append.mpr (Or.inl (by rw [hX]; exact List.mem_append.mpr (Or.inr hc1)))
    · exact List.mem_append.mpr (Or.inr hc2)

/-- C4 amended-claim witness: a registered command bound twice plus a tool
binding, at concrete inputs. -/
theorem c4_table_invariant_amended_witness :
    ((runBindOps ["new_layer"] []
        [.bindCommand [⟨0,3⟩] "new_layer" none, .bindTool [⟨0,7⟩] 0]).map
          (·.target)).Nodup
  ∧ (add_keyboard_shortcut_to_execute_command ["new_layer"]
        (add_keyboard_shortcut_to_execute_command ["new_layer"] [] [⟨0,3⟩] "new_layer"
          none).1 [⟨0,4⟩] "new_layer" none).1.length
      = (add_keyboard_shortcut_to_execute_command ["new_layer"] [] [⟨0,3⟩] "new_layer"
          none).1.length
  ∧ ∀ c ∈ ([⟨0,3⟩] ++ [⟨0,4⟩] : List Chord),
      c ∈ (add_keyboard_shortcut_to_execute_command ["new_layer"]
            (add_keyboard_shortcut_to_execute_command ["new_layer"] [] [⟨0,3⟩]
              "new_layer" none).1 [⟨0,4⟩] "new_layer" none).2 := by
  have h := c4_table_invariant_amended ["new_layer"]
    [.bindCommand [⟨0,3⟩] "new_layer" none, .bindTool [⟨0,7⟩] 0]
    [] [⟨0,3⟩] [⟨0,4⟩] "new_layer" none
  have h1 := h.1 (by
    intro op hop
    rcases List.mem_cons.mp hop with rfl | hop
    · simp [opRegistered]
    · rcases List.mem_cons.mp hop with rfl | hop
      · simp [opRegistered]
      · simp at hop)
  have h2 := h.2 (by simp)
  exact ⟨h1, h2.1, h2.2.2⟩

/-! ## Claim C9: bind-then-find roundtrip -/

/-- C9 counterexample: for an unregistered command name, `bind_command`
returns the fresh binding's accelerator, but the subsequent lookup with the
same pair returns NULL instead of that binding — the claimed roundtrip
fails (the claim quantifies over **all** (command, parameters) pairs). -/
theorem c9_counterexample :
    (add_keyboard_shortcut_to_execute_command [] [] [⟨0,3⟩] "foo" none).2 = [⟨0,3⟩]
  ∧ get_accel_to_execute_command []
      (add_keyboard_shortcut_to_execute_command [] [] [⟨0,3⟩] "foo" none).1
      "foo" none = none := by decide

/-- C9 (amended): for every (command, parameters) pair whose command name
is registered, `add_keyboard_shortcut_to_execute_command` followed by
`get_accel_to_execute_command` with the same pair returns exactly the
accelerator the bind returned, and every newly added chord is among its
alternatives. -/
theorem c9_roundtrip_amended (registry : List String) (table : List Shortcut)
    (chords : List Chord) (name : String) (params : Option Params)
    (h : name ∈ registry) :
    get_accel_to_execute_command registry
        (add_keyboard_shortcut_to_execute_command registry table chords name params).1
        name params
      = some (add_keyboard_shortcut_to_execute_command registry table chords name
          params).2
  ∧ ∀ c ∈ chords,
      c ∈ (add_keyboard_shortcut_to_execute_command registry table chords name
            params).2 := by
  simp only [get_accel_to_execute_command, get_keyboard_shortcut_for_command,
             add_keyboard_shortcut_to_execute_command, lookupCommand_of_mem h]
  obtain ⟨s, hfind, haccel⟩ :=
    appendChords_find_back (isCmdShortcutFor name params)
      ⟨[], .executeCommand (some name) (normParams params)⟩ chords
      (fun s a => isCmdShortcutFor_accel name params s a)
      ((isCmdShortcutFor_iff name params _).mpr rfl) table
  obtain ⟨X, hX⟩ :=
    appendChords_accel_suffix (isCmdShortcutFor name params)
      ⟨[], .executeCommand (some name) (normParams params)⟩ chords table
  refine ⟨by rw [hfind]; simp [haccel], ?_⟩
  intro c hc
  rw [hX]
  exact List.mem_append.mpr (Or.inr hc)

/-- C9 amended-claim witness at a concrete registry, chord and pair. -/
theorem c9_roundtrip_amended_witness :
    get_accel_to_execute_command ["undo"]
        (add_keyboard_shortcut_to_execute_command ["undo"] [] [⟨1,2⟩] "undo" none).1
        "undo" none
      = some (add_keyboard_shortcut_to_execute_command ["undo"] [] [⟨1,2⟩] "undo"
          none).2
  ∧ ∀ c ∈ ([⟨1,2⟩] : List Chord),
      c ∈ (add_keyboard_shortcut_to_execute_command ["undo"] [] [⟨1,2⟩] "undo"
            none).2 :=
  c9_roundtrip_amended ["undo"] [] [⟨1,2⟩] "undo" none (by simp)

/-! ## Key-event resolver lemmas -/

/-- `cycleFind` finds nothing when the current tool is not in the group. -/
theorem cycleFind_not_mem (c : Nat) :
    ∀ l : List Nat, c ∉ l → cycleFind c l = none := by
  intro l
  induction l with
  | nil => intro _; rfl
  | cons a rest ih =>
      intro h
      cases rest with
      | nil => rfl
      | cons b r2 =>
          have hac : ¬ a = c := fun he => h (by simp [he])
          simp only [cycleFind, if_neg hac]
          exact ih fun hm => h (by simp [hm])

/-- `cycleFind` finds nothing when the current tool is the last group
member (no wrap-around). -/
theorem cycleFind_getLast (c : Nat) :
    ∀ l : List Nat, l.Nodup → l.getLast? = some c → cycleFind c l = none := by
  intro l
  induction l with
  | nil => intro _ h; simp at h
  | cons a rest ih =>
      intro hnd hlast
      cases rest with
      | nil => rfl
      | cons b r2 =>
          have hlast2 : (b :: r2).getLast? = some c := hlast
          have hc : c ∈ b :: r2 := List.mem_of_mem_getLast? hlast2
          have hac : ¬ a = c := by
            intro he
            exact (List.nodup_cons.mp hnd).1 (he ▸ hc)
          simp only [cycleFind, if_neg hac]
          exact ih (List.nodup_cons.mp hnd).2 hlast2

/-- `cycleFind` advances to the group member following the current tool
when one exists. -/
theorem cycleFind_advance (c : Nat) :
    ∀ (l : List Nat) (i : Nat) (u : Nat), l.Nodup →
      l[i]? = some c → l[i+1]? = some u → cycleFind c l = some u := by
  intro l
  induction l with
  | nil => intro i u _ h _; simp at h
  | cons a rest ih =>
      intro i u hnd h1 h2
      cases i with
      | zero =>
          have ha : a = c := by simpa using h1
          cases rest with
          | nil => simp at h2
          | cons b r2 =>
              have hb : b = u := by simpa using h2
              simp [cycleFind, ha, hb]
      | succ j =>
          have h1' : rest[j]? = some c := by simpa using h1
          have h2' : rest[j+1]? = some u := by simpa using h2
          have hc : c ∈ rest := List.getElem?_mem h1'
          have hac : ¬ a = c := by
            intro he
            exact (List.nodup_cons.mp hnd).1 (he ▸ hc)
          cases rest with
          | nil => simp at h1'
          | cons b r2 =>
              simp only [cycleFind, if_neg hac]
              exact ih j u (List.nodup_cons.mp hnd).2 h1' h2'

/-- When at most one entry satisfies the scan predicate, the first-match
scan returns any satisfying member. -/
theorem find?_eq_some_of_countP_le_one {α : Type} (p : α → Bool) :
    ∀ (l : List α) (s : α), p s = true → s ∈ l → l.countP p ≤ 1 →
      l.find? p = some s := by
  intro l
  induction l with
  | nil => intro s _ hmem _; simp at hmem
  | cons a rest ih =>
      intro s hp hmem hcnt
      rcases List.mem_cons.mp hmem with rfl | hmem
      · exact List.find?_cons_of_pos _ hp
      · by_cases hpa : p a = true
        · exfalso
          have h1 : 0 < rest.countP p :=
            List.countP_pos_iff.mpr ⟨s, hmem, hp⟩
          rw [List.countP_cons_of_pos _ _ hpa] at hcnt
          omega
        · rw [List.find?_cons_of_neg _ (by simpa using hpa)]
          rw [List.countP_cons_of_neg _ _ (by simpa using hpa)] at hcnt
          exact ih s hp hmem hcnt

/-- Reduction of the resolver on a `ChangeTool` first match with all tools
bound: it selects the cycle's choice, defaulting to the matched binding's
tool. -/
theorem resolveKey_changeTool (table : List Shortcut) (toolsList : List Nat)
    (currentTool : Nat) (children : List ChildWin) (ev : KeyEvent)
    (s : Shortcut) (t : Nat)
    (hfind : table.find? (fun s' => s'.is_key_pressed ev) = some s)
    (htarget : s.target = .changeTool t)
    (hall : ∀ tl ∈ toolsList, (get_keyboard_shortcut_for_tool table tl).isSome) :
    resolveKey table toolsList currentTool children ev
      = .toolSelected
          (if 2 ≤ (matchingGroup table toolsList ev).length then
            (cycleFind currentTool (matchingGroup table toolsList ev)).getD t
          else t) := by
  have hallb : toolsList.all
      (fun tl => (get_keyboard_shortcut_for_tool table tl).isSome) = true :=
    List.all_eq_true.mpr fun tl h => by simpa using hall tl h
  simp only [resolveKey, hfind, htarget, hallb, if_true]

/-- The matched binding's tool belongs to the matching group (given the
per-tool uniqueness invariant and the tool being registered), and its
lookup returns the matched binding. -/
theorem matched_tool_mem_group (table : List Shortcut) (toolsList : List Nat)
    (ev : KeyEvent) (s : Shortcut) (t : Nat)
    (hfind : table.find? (fun s' => s'.is_key_pressed ev) = some s)
    (htarget : s.target = .changeTool t)
    (huniq : table.countP (isToolShortcutFor t) ≤ 1)
    (hti : t ∈ toolsList) :
    get_keyboard_shortcut_for_tool table t = some s
  ∧ t ∈ matchingGroup table toolsList ev := by
  have hs : s ∈ table := List.mem_of_find?_eq_some hfind
  have hps : isToolShortcutFor t s = true := (isToolShortcutFor_iff t s).mpr htarget
  have hlook : get_keyboard_shortcut_for_tool table t = some s :=
    find?_eq_some_of_countP_le_one _ table s hps hs huniq
  refine ⟨hlook, ?_⟩
  have hkey : s.is_key_pressed ev = true := by simpa using List.find?_some hfind
  refine List.mem_filter.mpr ⟨hti, ?_⟩
  simp [hlook, hkey]

/-! ## Claim C1: tool-cycling disambiguation -/

/-- C1 counterexample.  Tools 0 and 1 (registration order `[0, 1]`) are
both bound to the same chord, but the bindings were registered in the
shortcut table in the order tool 1, tool 0.  With the active tool 1 — the
last member of the matching group `[0, 1]` — the claim's fallback selects
the first match in the group, tool 0; the code keeps the matched (first in
table order) binding's tool and selects tool 1. -/
theorem c1_counterexample :
    matchingGroup
        (add_keyboard_shortcut_to_change_tool
          (add_keyboard_shortcut_to_change_tool [] [⟨0,7⟩] 1).1 [⟨0,7⟩] 0).1
        [0, 1] ⟨0,7⟩ = [0, 1]
  ∧ resolveKey
        (add_keyboard_shortcut_to_change_tool
          (add_keyboard_shortcut_to_change_tool [] [⟨0,7⟩] 1).1 [⟨0,7⟩] 0).1
        [0, 1] 1 [] ⟨0,7⟩ = .toolSelected 1
  ∧ ¬ resolveKey
        (add_keyboard_shortcut_to_change_tool
          (add_keyboard_shortcut_to_change_tool [] [⟨0,7⟩] 1).1 [⟨0,7⟩] 0).1
        [0, 1] 1 [] ⟨0,7⟩ = .toolSelected 0 := by decide

/-- C1 (amended): for a key press whose first matching binding is a
`ChangeTool` binding for tool `t` (all tools bound, tool list duplicate
free, at most one binding per tool, `t` registered): if the matching group
has exactly one member the resolver selects it; if the currently active
tool sits at position `i` of the group with a member at `i+1`, the
resolver selects that next member; otherwise (active tool last in the
group, or not in the group) the resolver selects **the matched binding's
tool `t`** — the first matching binding in shortcut-table order, which is
the group's first member only when table order agrees with
tool-registration order — with no wrap-around. -/
theorem c1_tool_cycle_amended (table : List Shortcut) (toolsList : List Nat)
    (currentTool : Nat) (children : List ChildWin) (ev : KeyEvent)
    (s : Shortcut) (t : Nat)
    (hfind : table.find? (fun s' => s'.is_key_pressed ev) = some s)
    (htarget : s.target = .changeTool t)
    (hall : ∀ tl ∈ toolsList, (get_keyboard_shortcut_for_tool table tl).isSome)
    (hnd : toolsList.Nodup)
    (hti : t ∈ toolsList)
    (huniq : table.countP (isToolShortcutFor t) ≤ 1) :
    (∀ u, matchingGroup table toolsList ev = [u] →
        resolveKey table toolsList currentTool children ev = .toolSelected u)
  ∧ (∀ i u, (matchingGroup table toolsList ev)[i]? = some currentTool →
        (matchingGroup table toolsList ev)[i+1]? = some u →
        resolveKey table toolsList currentTool children ev = .toolSelected u)
  ∧ ((currentTool ∉ matchingGroup table toolsList ev
        ∨ (matchingGroup table toolsList ev).getLast? = some currentTool) →
        resolveKey table toolsList currentTool children ev = .toolSelected t) := by
  have hred := resolveKey_changeTool table toolsList currentTool children ev s t
    hfind htarget hall
  have hGnd : (matchingGroup table toolsList ev).Nodup := hnd.filter _
  have htm := matched_tool_mem_group table toolsList ev s t hfind htarget huniq hti
  refine ⟨?_, ?_, ?_⟩
  · intro u hu
    rw [hred, hu]
    have : t = u := by
      have := htm.2
      rw [hu] at this
      simpa using this
    simp [cycleFind, this]
  · intro i u h1 h2
    have hlen : 2 ≤ (matchingGroup table toolsList ev).length := by
      have h3 := (List.getElem?_eq_some_iff.mp h2).1
      omega
    rw [hred, if_pos hlen, cycleFind_advance currentTool _ i u hGnd h1 h2]
    rfl
  · intro h
    rw [hred]
    by_cases hlen : 2 ≤ (matchingGroup table toolsList ev).length
    · rw [if_pos hlen]
      rcases h with h | h
      · rw [cycleFind_not_mem currentTool _ h]; rfl
      · rw [cycleFind_getLast currentTool _ hGnd h]; rfl
    · rw [if_neg hlen]

/-- C1 amended-claim witness: both bindings in tool order, active tool 0,
the cycle advances to tool 1. -/
theorem c1_tool_cycle_amended_witness :
    resolveKey
        (add_keyboard_shortcut_to_change_tool
          (add_keyboard_shortcut_to_change_tool [] [⟨0,7⟩] 0).1 [⟨0,7⟩] 1).1
        [0, 1] 0 [] ⟨0,7⟩ = .toolSelected 1 := by
  have h := c1_tool_cycle_amended
    (add_keyboard_shortcut_to_change_tool
      (add_keyboard_shortcut_to_change_tool [] [⟨0,7⟩] 0).1 [⟨0,7⟩] 1).1
    [0, 1] 0 [] ⟨0,7⟩ ⟨[⟨0,7⟩], .changeTool 0⟩ 0
    (by decide) (by decide) (by decide) (by decide) (by decide) (by decide)
  exact h.2.1 0 1 (by decide) (by decide)

/-! ## Claim C3: focus-gated command dispatch -/

/-- The child-scan gate executes the command exactly when the first child
that is either a foreground window or the desktop-and-top window exists
and is the latter. -/
theorem execGate_executed_iff (cmd : String) (params : Params) :
    ∀ children : List ChildWin,
      execGate cmd params children = .commandExecuted cmd params ↔
        ∃ c, children.find?
              (fun c => c.foreground || (c.desktop && c.isTopWindow)) = some c
           ∧ c.foreground = false := by
  intro children
  induction children with
  | nil => simp [execGate]
  | cons c rest ih =>
      by_cases hf : c.foreground = true
      · simp [execGate, List.find?_cons, hf]
      · have hf2 : c.foreground = false := by simpa using hf
        by_cases hd : (c.desktop && c.isTopWindow) = true
        · simp [execGate, List.find?_cons, hf2, hd]
        · have hd2 : (c.desktop && c.isTopWindow) = false := by simpa using hd
          simpa [execGate, List.find?_cons, hf2, hd2] using ih

/-- Reduction of the resolver on an `ExecuteCommand` first match with a
non-null command. -/
theorem resolveKey_executeCommand (table : List Shortcut) (toolsList : List Nat)
    (currentTool : Nat) (children : List ChildWin) (ev : KeyEvent)
    (s : Shortcut) (cmd : String) (params : Params)
    (hfind : table.find? (fun s' => s'.is_key_pressed ev) = some s)
    (htarget : s.target = .executeCommand (some cmd) params) :
    resolveKey table toolsList currentTool children ev
      = if cmd = screenShotId then .commandExecuted cmd params
        else execGate cmd params children := by
  simp only [resolveKey, hfind, htarget]

/-- C3 counterexample.  The manager's children are, in order, a
desktop-and-top window and then a foreground window.  A foreground window
is active among the children, so the claim says the (non-screenshot)
command must not execute; the code stops at the first qualifying child (the
desktop) and executes it. -/
theorem c3_counterexample :
    resolveKey [⟨[⟨0,5⟩], .executeCommand (some "new_layer") []⟩] [] 0
        [⟨false, true, true⟩, ⟨true, false, false⟩] ⟨0,5⟩
      = .commandExecuted "new_layer" []
  ∧ ([(⟨false, true, true⟩ : ChildWin), ⟨true, false, false⟩].any
        (·.foreground)) = true := by decide

/-- C3 (amended): a key press resolved to an `ExecuteCommand` binding
executes the screenshot command unconditionally; any other command is
executed (and the event consumed) **iff, scanning the manager's children
in order, the first child that is either a foreground window or the
desktop-and-top window exists and is a non-foreground desktop-and-top
child** — a foreground window only suppresses the command when it precedes
the desktop in the child list. -/
theorem c3_dispatch_gate_amended (table : List Shortcut) (toolsList : List Nat)
    (currentTool : Nat) (children : List ChildWin) (ev : KeyEvent)
    (s : Shortcut) (cmd : String) (params : Params)
    (hfind : table.find? (fun s' => s'.is_key_pressed ev) = some s)
    (htarget : s.target = .executeCommand (some cmd) params) :
    (cmd = screenShotId →
        resolveKey table toolsList currentTool children ev
          = .commandExecuted cmd params)
  ∧ (cmd ≠ screenShotId →
      (resolveKey table toolsList currentTool children ev
          = .commandExecuted cmd params ↔
        ∃ c, children.find?
              (fun c => c.foreground || (c.desktop && c.isTopWindow)) = some c
           ∧ c.foreground = false)) := by
  have hred := resolveKey_executeCommand table toolsList currentTool children ev
    s cmd params hfind htarget
  constructor
  · intro h
    rw [hred, if_pos h]
  · intro h
    rw [hred, if_neg h]
    exact execGate_executed_iff cmd params children

/-- C3 amended-claim witness: a lone desktop-and-top child executes a
non-screenshot command. -/
theorem c3_dispatch_gate_amended_witness :
    resolveKey [⟨[⟨0,5⟩], .executeCommand (some "new_layer") []⟩] [] 0
        [⟨false, true, true⟩] ⟨0,5⟩
      = .commandExecuted "new_layer" [] := by
  have h := c3_dispatch_gate_amended
    [⟨[⟨0,5⟩], .executeCommand (some "new_layer") []⟩] [] 0
    [⟨false, true, true⟩] ⟨0,5⟩ ⟨[⟨0,5⟩], .executeCommand (some "new_layer") []⟩
    "new_layer" [] (by decide) (by decide)
  exact (h.2 (by decide)).mpr ⟨⟨false, true, true⟩, by decide, by decide⟩

/-! ## Claim C6: unbound tools make the ChangeTool dispatch crash -/

/-- C6: the `ChangeTool` dispatch dereferences
`get_keyboard_shortcut_for_tool(tools_list[i])` for every registered tool
without a NULL check.  A tool with no binding makes the lookup return NULL
(`none`), and then the dispatch reaches the NULL-dereference (crash)
branch; when every tool in `tools_list` has a binding the dispatch is
well-defined and selects a tool. -/
theorem c6_unbound_tool_crash (table : List Shortcut) (toolsList : List Nat)
    (currentTool tool : Nat) (children : List ChildWin) (ev : KeyEvent)
    (s : Shortcut) (t : Nat) :
    ((∀ s' ∈ table, isToolShortcutFor tool s' = false) →
        get_keyboard_shortcut_for_tool table tool = none)
  ∧ (table.find? (fun s' => s'.is_key_pressed ev) = some s →
      s.target = .changeTool t →
      ((∃ tl ∈ toolsList, get_keyboard_shortcut_for_tool table tl = none) →
          resolveKey table toolsList currentTool children ev = .crash)
    ∧ ((∀ tl ∈ toolsList, (get_keyboard_shortcut_for_tool table tl).isSome) →
          ∃ u, resolveKey table toolsList currentTool children ev
                = .toolSelected u)) := by
  constructor
  · intro h
    exact List.find?_eq_none.mpr fun s' hs' => by simp [h s' hs']
  · intro hfind htarget
    constructor
    · intro ⟨tl, htl, hnone⟩
      have hallf : toolsList.all
          (fun tl => (get_keyboard_shortcut_for_tool table tl).isSome) = false :=
        List.all_eq_false.mpr ⟨tl, htl, by simp [hnone]⟩
      simp only [resolveKey, hfind, htarget, hallf]
      simp
    · intro hall
      exact ⟨_, resolveKey_changeTool table toolsList currentTool children ev
        s t hfind htarget hall⟩

/-! ## Monitor-scheduler lemmas -/

theorem eraseById_sublist : ∀ (l : List Mon) (x : Nat), List.Sublist (eraseById l x) l := by
  intro l x
  induction l with
  | nil => simp [eraseById]
  | cons m rest ih =>
      by_cases h : m.id = x
      · simp only [eraseById, if_pos h]
        exact List.sublist_cons_self m rest
      · simp only [eraseById, if_neg h]
        exact ih.cons₂ m

theorem map_id_eraseById : ∀ (l : List Mon) (x : Nat),
    (eraseById l x).map (·.id) = (l.map (·.id)).erase x := by
  intro l x
  induction l with
  | nil => simp [eraseById]
  | cons m rest ih =>
      by_cases h : m.id = x
      · simp [eraseById, h, List.erase_cons]
      · simp [eraseById, h, List.erase_cons, ih]

theorem eraseById_of_all_eq : ∀ (l : List Mon) (x : Nat),
    (∀ d ∈ l, d.id = x) → (l.map (·.id)).Nodup → eraseById l x = [] := by
  intro l x hall hnd
  cases l with
  | nil => rfl
  | cons d rest =>
      have hd : d.id = x := hall d (by simp)
      simp only [eraseById, if_pos hd]
      cases rest with
      | nil => rfl
      | cons r rest2 =>
          exfalso
          have hr : r.id = x := hall r (by simp)
          have : d.id ∈ (r :: rest2).map (·.id) := by simp [hd, hr]
          exact (List.nodup_cons.mp (by simpa using hnd)).1 this

/-- `remove_gui_monitor` never touches the poll log, the timer id, the
timer-id source or the fresh-identity source. -/
theorem remove_fields (st : Sched) (rid : Nat) :
    (remove_gui_monitor st rid).polled = st.polled
  ∧ (remove_gui_monitor st rid).timerId = st.timerId
  ∧ (remove_gui_monitor st rid).timerSeq = st.timerSeq
  ∧ (remove_gui_monitor st rid).nextId = st.nextId := by
  unfold remove_gui_monitor
  cases h : st.monitors.find? (fun m => m.id = rid) with
  | none => exact ⟨rfl, rfl, rfl, rfl⟩
  | some m => by_cases hl : m.lock = false <;> simp [hl]

theorem runRemovals_fields (reqs : List Nat) : ∀ st : Sched,
    (runRemovals reqs st).polled = st.polled
  ∧ (runRemovals reqs st).timerId = st.timerId
  ∧ (runRemovals reqs st).timerSeq = st.timerSeq
  ∧ (runRemovals reqs st).nextId = st.nextId := by
  induction reqs with
  | nil => intro st; exact ⟨rfl, rfl, rfl, rfl⟩
  | cons r rest ih =>
      intro st
      have h1 := remove_fields st r
      have h2 := ih (remove_gui_monitor st r)
      exact ⟨h2.1.trans h1.1, h2.2.1.trans h1.2.1,
             h2.2.2.1.trans h1.2.2.1, h2.2.2.2.trans h1.2.2.2⟩

theorem setLock_fields (st : Sched) (mid : Nat) (b : Bool) :
    monIds (setLock st mid b) = monIds st
  ∧ (setLock st mid b).detached = st.detached
  ∧ (setLock st mid b).polled = st.polled
  ∧ (setLock st mid b).torndown = st.torndown
  ∧ (setLock st mid b).nextId = st.nextId
  ∧ (setLock st mid b).timerId = st.timerId
  ∧ (setLock st mid b).timerSeq = st.timerSeq
  ∧ (setLock st mid b).timerRunning = st.timerRunning := by
  refine ⟨?_, rfl, rfl, rfl, rfl, rfl, rfl, rfl⟩
  simp only [monIds, setLock, List.map_map]
  apply List.map_congr_left
  intro m _
  by_cases h : m.id = mid <;> simp [h]

theorem pollFinish_fields (mid : Nat) (b : Sched) :
    (pollFinish mid b).timerId = b.timerId
  ∧ (pollFinish mid b).timerSeq = b.timerSeq
  ∧ (pollFinish mid b).nextId = b.nextId
  ∧ (pollFinish mid b).polled = b.polled
  ∧ (pollFinish mid b).timerRunning = b.timerRunning := by
  unfold pollFinish
  split
  · exact ⟨rfl, rfl, rfl, rfl, rfl⟩
  · split
    · split
      · exact ⟨rfl, rfl, rfl, rfl, rfl⟩
      · exact ⟨rfl, rfl, rfl, rfl, rfl⟩
    · exact ⟨rfl, rfl, rfl, rfl, rfl⟩

theorem tickStep_fields (procs : Nat → List Nat) (mid : Nat) (st : Sched) :
    (tickStep procs mid st).timerId = st.timerId
  ∧ (tickStep procs mid st).timerSeq = st.timerSeq
  ∧ (tickStep procs mid st).nextId = st.nextId := by
  unfold tickStep
  have h0 := pollFinish_fields mid
    (runRemovals (procs mid)
      { setLock st mid true with polled := (setLock st mid true).polled ++ [mid] })
  have h1 := runRemovals_fields (procs mid)
    { setLock st mid true with polled := (setLock st mid true).polled ++ [mid] }
  have h2 := setLock_fields st mid true
  exact ⟨h0.1.trans (h1.2.1.trans h2.2.2.2.2.2.1),
         h0.2.1.trans (h1.2.2.1.trans h2.2.2.2.2.2.2.1),
         h0.2.2.1.trans (h1.2.2.2.trans h2.2.2.2.2.1)⟩

theorem tickVisit_fields (procs : Nat → List Nat) : ∀ (fuel : Nat) (cur : Option Nat)
    (st : Sched),
    (tickVisit procs fuel cur st).timerId = st.timerId
  ∧ (tickVisit procs fuel cur st).timerSeq = st.timerSeq
  ∧ (tickVisit procs fuel cur st).nextId = st.nextId := by
  intro fuel
  induction fuel with
  | zero => intro cur st; exact ⟨rfl, rfl, rfl⟩
  | succ n ih =>
      intro cur st
      cases cur with
      | none => exact ⟨rfl, rfl, rfl⟩
      | some mid =>
          simp only [tickVisit]
          cases h : st.monitors.find? (fun m => m.id = mid) with
          | none => exact ⟨rfl, rfl, rfl⟩
          | some m =>
              by_cases hl : m.lock = true
              · simpa [hl] using ih (nextAfter st.monitors mid) st
              · have h1 := ih (nextAfter st.monitors mid) (tickStep procs mid st)
                have h2 := tickStep_fields procs mid st
                simp only [hl, if_false]
                exact ⟨h1.1.trans h2.1, h1.2.1.trans h2.2.1, h1.2.2.trans h2.2.2⟩

/-- Reduction: removing an absent handle is the (assertion-failing) no-op. -/
theorem remove_eq_none {st : Sched} {rid : Nat}
    (h : st.monitors.find? (fun m => m.id = rid) = none) :
    remove_gui_monitor st rid = st := by
  unfold remove_gui_monitor
  rw [h]

/-- Reduction: removing an unlocked monitor destroys it now. -/
theorem remove_eq_unlocked {st : Sched} {rid : Nat} {m : Mon}
    (h : st.monitors.find? (fun m => m.id = rid) = some m)
    (hl : m.lock = false) :
    remove_gui_monitor st rid
      = { st with monitors := eraseById st.monitors rid,
                  torndown := st.torndown ++ [rid],
                  timerRunning := if (eraseById st.monitors rid).isEmpty then false
                                  else st.timerRunning } := by
  unfold remove_gui_monitor
  rw [h]
  simp [hl]

/-- Reduction: removing a locked monitor detaches it with `deleted` set. -/
theorem remove_eq_locked {st : Sched} {rid : Nat} {m : Mon}
    (h : st.monitors.find? (fun m => m.id = rid) = some m)
    (hl : m.lock = true) :
    remove_gui_monitor st rid
      = { st with monitors := eraseById st.monitors rid,
                  detached := st.detached ++ [{ m with deleted := true }],
                  timerRunning := if (eraseById st.monitors rid).isEmpty then false
                                  else st.timerRunning } := by
  unfold remove_gui_monitor
  rw [h]
  simp [hl]

/-- `remove_gui_monitor` preserves the scheduler invariant whatever monitor
it is asked to remove. -/
theorem remove_RINVS (mid rid : Nat) (st : Sched) (h : RINVS mid st) :
    RINVS mid (remove_gui_monitor st rid) := by
  cases hf : st.monitors.find? (fun m => m.id = rid) with
  | none => rw [remove_eq_none hf]; exact h
  | some m =>
    have hmem : m ∈ st.monitors := List.mem_of_find?_eq_some hf
    have hmid : m.id = rid := by simpa using List.find?_some hf
    have hridmon : rid ∈ monIds st := List.mem_map.mpr ⟨m, hmem, hmid⟩
    have hridall : rid ∈ allIds st := List.mem_append.mpr (Or.inl hridmon)
    have hridlt : rid < st.nextId := h.bound rid hridall
    have hmonnd : (monIds st).Nodup := (List.nodup_append.mp h.nodup).1
    have hdisj : (monIds st).Disjoint (detIds st) := (List.nodup_append.mp h.nodup).2.2
    by_cases hl : m.lock = false
    · -- not locked: destroyed now, teardown logged
      rw [remove_eq_unlocked hf hl]
      have hneq : rid ≠ mid := by
        intro he
        have hlk : m.lock = true := (h.locks m hmem).2.mpr (hmid.trans he)
        rw [hl] at hlk
        exact Bool.false_ne_true hlk
      refine ⟨?_, ?_, ?_, ?_, ?_, ?_, ?_⟩
      · intro m' hm'
        exact h.locks m' ((eraseById_sublist st.monitors rid).subset hm')
      · exact h.det
      · simp only [allIds, monIds, detIds, map_id_eraseById]
        exact ((List.erase_sublist rid (monIds st)).append_right (detIds st)).nodup h.nodup
      · intro i hi
        simp only [allIds, monIds, detIds, map_id_eraseById] at hi
        rcases List.mem_append.mp hi with hml | hdl
        · exact h.bound i (List.mem_append.mpr
            (Or.inl ((hmonnd.mem_erase_iff).mp hml).2))
        · exact h.bound i (List.mem_append.mpr (Or.inr hdl))
      · intro i hi
        simp only [allIds, monIds, detIds, map_id_eraseById] at hi
        rcases List.mem_append.mp hi with hml | hdl
        · obtain ⟨hir, hml2⟩ := (hmonnd.mem_erase_iff).mp hml
          have h0 := h.countMem i (List.mem_append.mpr (Or.inl hml2))
          simp [List.count_append, h0, hir]
        · have hir : i ≠ rid := fun he => hdisj hridmon (he ▸ hdl)
          have h0 := h.countMem i (List.mem_append.mpr (Or.inr hdl))
          simp [List.count_append, h0, hir]
      · intro i hlt2 hni
        simp only [allIds, monIds, detIds, map_id_eraseById] at hni
        by_cases hir : i = rid
        · subst hir
          have h0 : st.torndown.count i = 0 := h.countMem i hridall
          simp [List.count_append, h0]
        · have hnotold : i ∉ allIds st := by
            intro hold
            apply hni
            rcases List.mem_append.mp hold with hml | hdl
            · exact List.mem_append.mpr (Or.inl ((hmonnd.mem_erase_iff).mpr ⟨hir, hml⟩))
            · exact List.mem_append.mpr (Or.inr hdl)
          have h1 := h.countGone i hlt2 hnotold
          simp [List.count_append, h1, hir]
      · intro i hle
        have hle2 : st.nextId ≤ i := hle
        have hir : i ≠ rid := by omega
        have h1 := h.countFresh i hle2
        simp [List.count_append, h1, hir]
    · -- locked: the running monitor removes itself; deletion deferred
      have hlk : m.lock = true := by
        cases hmlk : m.lock
        · exact absurd hmlk hl
        · rfl
      have hmm : m.id = mid := (h.locks m hmem).2.mp hlk
      have hrm : rid = mid := hmid.symm.trans hmm
      rw [remove_eq_locked hf hlk]
      have hperm : List.Perm ((monIds st).erase rid ++ (detIds st ++ [rid]))
          (allIds st) := by
        have e1 : (monIds st).erase rid ++ (detIds st ++ [rid])
            = ((monIds st).erase rid ++ detIds st) ++ [rid] := by
          rw [List.append_assoc]
        rw [e1]
        refine List.Perm.trans (List.perm_append_singleton rid _) ?_
        have h2 : List.Perm (rid :: (monIds st).erase rid) (monIds st) :=
          (List.perm_cons_erase hridmon).symm
        exact (List.perm_append_right_iff (detIds st)).mpr h2
      refine ⟨?_, ?_, ?_, ?_, ?_, ?_, ?_⟩
      · intro m' hm'
        exact h.locks m' ((eraseById_sublist st.monitors rid).subset hm')
      · intro d hd
        rcases List.mem_append.mp hd with hold | hnew
        · exact h.det d hold
        · have : d = { m with deleted := true } := by simpa using hnew
          subst this
          exact ⟨hmm, rfl⟩
      · simp only [allIds, monIds, detIds, map_id_eraseById, List.map_append,
                   List.map_cons, List.map_nil, hmid]
        exact hperm.symm.nodup h.nodup
      · intro i hi
        simp only [allIds, monIds, detIds, map_id_eraseById, List.map_append,
                   List.map_cons, List.map_nil, hmid] at hi
        exact h.bound i (hperm.mem_iff.mp hi)
      · intro i hi
        simp only [allIds, monIds, detIds, map_id_eraseById, List.map_append,
                   List.map_cons, List.map_nil, hmid] at hi
        exact h.countMem i (hperm.mem_iff.mp hi)
      · intro i hlt2 hni
        simp only [allIds, monIds, detIds, map_id_eraseById, List.map_append,
                   List.map_cons, List.map_nil, hmid] at hni
        exact h.countGone i hlt2 (fun hold => hni (hperm.mem_iff.mpr hold))
      · intro i hle
        exact h.countFresh i hle

/-- The invariant ignores the poll log. -/
theorem RINVS_polled {mid : Nat} {st : Sched} (X : List Nat) (h : RINVS mid st) :
    RINVS mid { st with polled := X } :=
  ⟨h.locks, h.det, h.nodup, h.bound, h.countMem, h.countGone, h.countFresh⟩

/-- The invariant ignores the timer-running flag. -/
theorem RINVS_timer {mid : Nat} {st : Sched} (b : Bool) (h : RINVS mid st) :
    RINVS mid { st with timerRunning := b } :=
  ⟨h.locks, h.det, h.nodup, h.bound, h.countMem, h.countGone, h.countFresh⟩

/-- Between events every monitor is unlocked and not marked deleted. -/
theorem INV_unlocked (st : Sched) (h : INV st) :
    ∀ m ∈ st.monitors, m.lock = false ∧ m.deleted = false := by
  intro m hm
  have h1 := h.locks m hm
  have hb : m.id < st.nextId :=
    h.bound m.id (List.mem_append.mpr (Or.inl (List.mem_map.mpr ⟨m, hm, rfl⟩)))
  refine ⟨?_, h1.1⟩
  cases hml : m.lock
  · rfl
  · exact absurd (h1.2.mp hml) (by omega)

/-- Between events the detached list is empty. -/
theorem INV_detached_nil (st : Sched) (h : INV st) : st.detached = [] := by
  cases hd : st.detached with
  | nil => rfl
  | cons d rest =>
      exfalso
      have h1 := h.det d (by rw [hd]; simp)
      have hb := h.bound d.id
        (List.mem_append.mpr (Or.inr (List.mem_map.mpr ⟨d, by rw [hd]; simp, rfl⟩)))
      rw [h1.1] at hb
      omega

/-- An identity is found by the identity scan exactly when it is listed. -/
theorem find?_id_isSome_iff (l : List Mon) (x : Nat) :
    (l.find? (fun m => m.id = x)).isSome ↔ x ∈ l.map (·.id) := by
  rw [List.find?_isSome]
  constructor
  · intro ⟨m, hm, hp⟩
    exact List.mem_map.mpr ⟨m, hm, by simpa using hp⟩
  · intro hx
    obtain ⟨m, hm, he⟩ := List.mem_map.mp hx
    exact ⟨m, hm, by simpa using he⟩

/-- Locking the monitor whose callback is about to run turns the top-level
invariant into the running-form invariant. -/
theorem setLock_true_RINVS (st : Sched) (mid : Nat) (h : INV st) :
    RINVS mid (setLock st mid true) := by
  have hfl := setLock_fields st mid true
  have hdn := INV_detached_nil st h
  refine ⟨?_, ?_, ?_, ?_, ?_, ?_, ?_⟩
  · intro m' hm'
    obtain ⟨m, hm, he⟩ := List.mem_map.mp hm'
    have hu := INV_unlocked st h m hm
    by_cases hid : m.id = mid
    · rw [if_pos hid] at he
      subst he
      exact ⟨hu.2, by simp [hid]⟩
    · rw [if_neg hid] at he
      subst he
      refine ⟨hu.2, ?_⟩
      simp [hu.1, hid]
  · intro d hd
    have : d ∈ st.detached := hd
    rw [hdn] at this
    simp at this
  · show ((allIds (setLock st mid true))).Nodup
    have : allIds (setLock st mid true) = allIds st := by
      simp only [allIds, hfl.1]
      rfl
    rw [this]
    exact h.nodup
  · intro i hi
    have he : allIds (setLock st mid true) = allIds st := by
      simp only [allIds, hfl.1]; rfl
    rw [he] at hi
    exact h.bound i hi
  · intro i hi
    have he : allIds (setLock st mid true) = allIds st := by
      simp only [allIds, hfl.1]; rfl
    rw [he] at hi
    exact h.countMem i hi
  · intro i hlt hni
    have he : allIds (setLock st mid true) = allIds st := by
      simp only [allIds, hfl.1]; rfl
    rw [he] at hni
    exact h.countGone i hlt hni
  · intro i hle
    exact h.countFresh i hle

/-- Unlocking the running monitor (still listed after its callback)
restores the top-level invariant. -/
theorem setLock_false_INV (b : Sched) (mid : Nat) (hr : RINVS mid b)
    (hp : mid ∈ monIds b) : INV (setLock b mid false) := by
  have hfl := setLock_fields b mid false
  have hdnil : b.detached = [] := by
    cases hd : b.detached with
    | nil => rfl
    | cons d rest =>
        exfalso
        have h1 := hr.det d (by rw [hd]; simp)
        have hdet : mid ∈ detIds b := by
          rw [← h1.1]
          exact List.mem_map.mpr ⟨d, by rw [hd]; simp, rfl⟩
        exact (List.nodup_append.mp hr.nodup).2.2 hp hdet
  have heq : allIds (setLock b mid false) = allIds b := by
    simp only [allIds, hfl.1]; rfl
  refine ⟨?_, ?_, ?_, ?_, ?_, ?_, ?_⟩
  · intro m' hm'
    obtain ⟨m, hm, he⟩ := List.mem_map.mp hm'
    have hl := hr.locks m hm
    have hblt : m.id < b.nextId :=
      hr.bound m.id (List.mem_append.mpr (Or.inl (List.mem_map.mpr ⟨m, hm, rfl⟩)))
    by_cases hid : m.id = mid
    · rw [if_pos hid] at he
      subst he
      refine ⟨hl.1, ?_⟩
      simp only [Bool.false_eq_true, false_iff]
      omega
    · rw [if_neg hid] at he
      subst he
      refine ⟨hl.1, ?_⟩
      have : m.lock = false := by
        cases hml : m.lock
        · rfl
        · exact absurd (hl.2.mp hml) hid
      rw [this]
      simp only [Bool.false_eq_true, false_iff]
      omega
  · intro d hd
    have : d ∈ b.detached := hd
    rw [hdnil] at this
    simp at this
  · rw [heq]; exact hr.nodup
  · intro i hi; rw [heq] at hi; exact hr.bound i hi
  · intro i hi; rw [heq] at hi; exact hr.countMem i hi
  · intro i hlt hni; rw [heq] at hni; exact hr.countGone i hlt hni
  · intro i hle; exact hr.countFresh i hle

/-- Destroying the detached self-removed monitor after its callback
restores the top-level invariant, logging its teardown exactly once. -/
theorem detach_teardown_INV (b : Sched) (mid : Nat) (hr : RINVS mid b)
    (hmon : mid ∉ monIds b) (hdet : mid ∈ detIds b) (hlt : mid < b.nextId) :
    INV { b with detached := eraseById b.detached mid,
                 torndown := b.torndown ++ [mid] } := by
  have hdetnd : (detIds b).Nodup := (List.nodup_append.mp hr.nodup).2.1
  have herase : eraseById b.detached mid = [] :=
    eraseById_of_all_eq b.detached mid (fun d hd => (hr.det d hd).1) hdetnd
  have hmidall : mid ∈ allIds b := List.mem_append.mpr (Or.inr hdet)
  refine ⟨?_, ?_, ?_, ?_, ?_, ?_, ?_⟩
  · intro m hm
    have hl := hr.locks m hm
    have hblt : m.id < b.nextId :=
      hr.bound m.id (List.mem_append.mpr (Or.inl (List.mem_map.mpr ⟨m, hm, rfl⟩)))
    refine ⟨hl.1, ?_⟩
    have hne : m.id ≠ mid := fun he => hmon (he ▸ List.mem_map.mpr ⟨m, hm, rfl⟩)
    have : m.lock = false := by
      cases hml : m.lock
      · rfl
      · exact absurd (hl.2.mp hml) hne
    rw [this]
    simp only [Bool.false_eq_true, false_iff]
    omega
  · intro d hd
    have : d ∈ eraseById b.detached mid := hd
    rw [herase] at this
    simp at this
  · show (monIds b ++ (eraseById b.detached mid).map (·.id)).Nodup
    rw [herase]
    simpa using (List.nodup_append.mp hr.nodup).1
  · intro i hi
    have : i ∈ monIds b := by
      rcases List.mem_append.mp hi with hml | hdl
      · exact hml
      · have hdl2 : i ∈ (eraseById b.detached mid).map (·.id) := hdl
        rw [herase] at hdl2
        simp at hdl2
    exact hr.bound i (List.mem_append.mpr (Or.inl this))
  · intro i hi
    have him : i ∈ monIds b := by
      rcases List.mem_append.mp hi with hml | hdl
      · exact hml
      · have hdl2 : i ∈ (eraseById b.detached mid).map (·.id) := hdl
        rw [herase] at hdl2
        simp at hdl2
    have hne : i ≠ mid := fun he => hmon (he ▸ him)
    have h0 := hr.countMem i (List.mem_append.mpr (Or.inl him))
    simp [List.count_append, h0, hne]
  · intro i hlt2 hni
    by_cases hie : i = mid
    · subst hie
      have h0 := hr.countMem i hmidall
      simp [List.count_append, h0]
    · have hnotall : i ∉ allIds b := by
        intro hall
        rcases List.mem_append.mp hall with hml | hdl
        · exact hni (List.mem_append.mpr (Or.inl hml))
        · obtain ⟨d, hd, he⟩ := List.mem_map.mp hdl
          exact hie (he ▸ (hr.det d hd).1)
      have h1 := hr.countGone i hlt2 hnotall
      simp [List.count_append, h1, hie]
  · intro i hle
    have hle2 : b.nextId ≤ i := hle
    have hie : i ≠ mid := by omega
    have h1 := hr.countFresh i hle2
    simp [List.count_append, h1, hie]

/-- A monitor the scheduler still references stays referenced across any
removal request (it moves from the list to the detached object when it
removes itself while running). -/
theorem remove_mem_allIds (mid rid : Nat) (st : Sched) (h : RINVS mid st)
    (hmem : mid ∈ allIds st) : mid ∈ allIds (remove_gui_monitor st rid) := by
  cases hf : st.monitors.find? (fun m => m.id = rid) with
  | none => rw [remove_eq_none hf]; exact hmem
  | some m =>
    have hmemm : m ∈ st.monitors := List.mem_of_find?_eq_some hf
    have hmid : m.id = rid := by simpa using List.find?_some hf
    have hmonnd : (monIds st).Nodup := (List.nodup_append.mp h.nodup).1
    by_cases hl : m.lock = false
    · rw [remove_eq_unlocked hf hl]
      have hneq : mid ≠ rid := by
        intro he
        have hlk : m.lock = true := (h.locks m hmemm).2.mpr (hmid.trans he.symm)
        rw [hl] at hlk
        exact Bool.false_ne_true hlk
      rcases List.mem_append.mp hmem with hml | hdl
      · refine List.mem_append.mpr (Or.inl ?_)
        show mid ∈ (eraseById st.monitors rid).map (·.id)
        rw [map_id_eraseById]
        exact (hmonnd.mem_erase_iff).mpr ⟨hneq, hml⟩
      · exact List.mem_append.mpr (Or.inr hdl)
    · have hlk : m.lock = true := by
        cases hmlk : m.lock
        · exact absurd hmlk hl
        · rfl
      have hmm : m.id = mid := (h.locks m hmemm).2.mp hlk
      rw [remove_eq_locked hf hlk]
      refine List.mem_append.mpr (Or.inr ?_)
      show mid ∈ (st.detached ++ [{ m with deleted := true }]).map (fun d : Mon => d.id)
      simp [hmm]

/-- Removal requests issued by a running poll callback preserve the
running-form invariant and keep the running monitor referenced. -/
theorem runRemovals_RINVS_mem (mid : Nat) (reqs : List Nat) : ∀ st : Sched,
    RINVS mid st → mid ∈ allIds st →
    RINVS mid (runRemovals reqs st) ∧ mid ∈ allIds (runRemovals reqs st) := by
  induction reqs with
  | nil => intro st h hm; exact ⟨h, hm⟩
  | cons r rest ih =>
      intro st h hm
      exact ih (remove_gui_monitor st r) (remove_RINVS mid r st h)
        (remove_mem_allIds mid r st h hm)

/-- After the poll callback, clearing the lock or destroying the detached
self-removed monitor restores the top-level invariant. -/
theorem pollFinish_INV (mid : Nat) (b : Sched) (hr : RINVS mid b)
    (hm : mid ∈ allIds b) (hlt : mid < b.nextId) : INV (pollFinish mid b) := by
  unfold pollFinish
  by_cases hp : (b.monitors.find? (fun m' => m'.id = mid)).isSome = true
  · rw [if_pos hp]
    exact setLock_false_INV b mid hr ((find?_id_isSome_iff b.monitors mid).mp hp)
  · rw [if_neg hp]
    have hmon : mid ∉ monIds b := fun hm2 =>
      hp ((find?_id_isSome_iff b.monitors mid).mpr hm2)
    have hdet : mid ∈ detIds b := (List.mem_append.mp hm).resolve_left hmon
    obtain ⟨d0, hd0, hid0⟩ := List.mem_map.mp hdet
    cases hfd : b.detached.find? (fun d => d.id = mid) with
    | none => exact absurd hid0 (by simpa using List.find?_eq_none.mp hfd d0 hd0)
    | some d =>
        have hdmem : d ∈ b.detached := List.mem_of_find?_eq_some hfd
        have hddel : d.deleted = true := (hr.det d hdmem).2
        show INV (if d.deleted = true then
          { b with detached := eraseById b.detached mid,
                   torndown := b.torndown ++ [mid] } else b)
        rw [if_pos hddel]
        exact detach_teardown_INV b mid hr hmon hdet hlt

/-- One unlocked listed monitor's visit preserves the top-level invariant. -/
theorem tickStep_INV (procs : Nat → List Nat) (mid : Nat) (st : Sched)
    (h : INV st) (hmem : mid ∈ monIds st) : INV (tickStep procs mid st) := by
  unfold tickStep
  have ha : RINVS mid (setLock st mid true) := setLock_true_RINVS st mid h
  have ha2 : RINVS mid { setLock st mid true with
      polled := (setLock st mid true).polled ++ [mid] } := RINVS_polled _ ha
  have hmem2 : mid ∈ allIds { setLock st mid true with
      polled := (setLock st mid true).polled ++ [mid] } := by
    refine List.mem_append.mpr (Or.inl ?_)
    show mid ∈ monIds (setLock st mid true)
    rw [(setLock_fields st mid true).1]
    exact hmem
  obtain ⟨hrb, hmb⟩ := runRemovals_RINVS_mem mid (procs mid) _ ha2 hmem2
  have hlt : mid < st.nextId := h.bound mid (List.mem_append.mpr (Or.inl hmem))
  have hnx : (runRemovals (procs mid) { setLock st mid true with
      polled := (setLock st mid true).polled ++ [mid] }).nextId = st.nextId := by
    have h1 := runRemovals_fields (procs mid) { setLock st mid true with
      polled := (setLock st mid true).polled ++ [mid] }
    exact h1.2.2.2.trans (setLock_fields st mid true).2.2.2.2.1
  exact pollFinish_INV mid _ hrb hmb (by rw [hnx]; exact hlt)

/-- The whole timer iteration preserves the top-level invariant. -/
theorem tickVisit_INV (procs : Nat → List Nat) : ∀ (fuel : Nat) (cur : Option Nat)
    (st : Sched), INV st → INV (tickVisit procs fuel cur st) := by
  intro fuel
  induction fuel with
  | zero => intro cur st h; exact h
  | succ n ih =>
      intro cur st h
      cases cur with
      | none => exact h
      | some mid =>
          simp only [tickVisit]
          cases hf : st.monitors.find? (fun m => m.id = mid) with
          | none => exact h
          | some m =>
              have hmemm : m ∈ st.monitors := List.mem_of_find?_eq_some hf
              have hmid : m.id = mid := by simpa using List.find?_some hf
              by_cases hl : m.lock = true
              · simp only [hl, if_true]
                exact ih (nextAfter st.monitors mid) st h
              · simp only [hl, if_false]
                exact ih (nextAfter st.monitors mid) (tickStep procs mid st)
                  (tickStep_INV procs mid st h
                    (List.mem_map.mpr ⟨m, hmemm, hmid⟩))

/-- `add_gui_monitor`'s observable field changes. -/
theorem add_fields (st : Sched) :
    (add_gui_monitor st).monitors = st.monitors ++ [⟨st.nextId, false, false⟩]
  ∧ (add_gui_monitor st).detached = st.detached
  ∧ (add_gui_monitor st).nextId = st.nextId + 1
  ∧ (add_gui_monitor st).polled = st.polled
  ∧ (add_gui_monitor st).torndown = st.torndown
  ∧ (add_gui_monitor st).timerRunning = true := by
  unfold add_gui_monitor
  by_cases h : st.timerId.isSome <;> simp [h]

/-- `add_gui_monitor` preserves the top-level invariant. -/
theorem add_INV (st : Sched) (h : INV st) : INV (add_gui_monitor st) := by
  have hfl := add_fields st
  have hdn := INV_detached_nil st h
  have heq : allIds (add_gui_monitor st) = (monIds st ++ [st.nextId]) := by
    simp [allIds, monIds, detIds, hfl.1, hfl.2.1, hdn]
  show RINVS (add_gui_monitor st).nextId (add_gui_monitor st)
  rw [hfl.2.2.1]
  refine ⟨?_, ?_, ?_, ?_, ?_, ?_, ?_⟩
  · intro m hm
    rw [hfl.1] at hm
    rcases List.mem_append.mp hm with hold | hnew
    · have hu := INV_unlocked st h m hold
      have hb : m.id < st.nextId :=
        h.bound m.id (List.mem_append.mpr (Or.inl (List.mem_map.mpr ⟨m, hold, rfl⟩)))
      refine ⟨hu.2, ?_⟩
      rw [hu.1]
      simp only [Bool.false_eq_true, false_iff]
      omega
    · have : m = ⟨st.nextId, false, false⟩ := by simpa using hnew
      subst this
      simp
  · intro d hd
    have : d ∈ st.detached := by
      have h2 : d ∈ (add_gui_monitor st).detached := hd
      rwa [hfl.2.1] at h2
    rw [hdn] at this
    simp at this
  · rw [heq]
    have hmonnd : (monIds st).Nodup := (List.nodup_append.mp h.nodup).1
    have hnotm : st.nextId ∉ monIds st := fun hmm =>
      absurd (h.bound st.nextId (List.mem_append.mpr (Or.inl hmm))) (by omega)
    simp [List.nodup_append, hmonnd, hnotm]
  · intro i hi
    rw [heq] at hi
    rcases List.mem_append.mp hi with hml | hsing
    · have := h.bound i (List.mem_append.mpr (Or.inl hml))
      omega
    · have : i = st.nextId := by simpa using hsing
      omega
  · intro i hi
    rw [heq] at hi
    show (add_gui_monitor st).torndown.count i = 0
    rw [hfl.2.2.2.2.1]
    rcases List.mem_append.mp hi with hml | hsing
    · exact h.countMem i (List.mem_append.mpr (Or.inl hml))
    · have he : i = st.nextId := by simpa using hsing
      rw [he]
      exact h.countFresh st.nextId (le_refl st.nextId)
  · intro i hlt hni
    rw [heq] at hni
    show (add_gui_monitor st).torndown.count i = 1
    rw [hfl.2.2.2.2.1]
    have hne : i ≠ st.nextId := fun he =>
      hni (List.mem_append.mpr (Or.inr (by simp [he])))
    have hlt2 : (add_gui_monitor st).nextId = st.nextId + 1 := hfl.2.2.1
    have hlt3 : i < st.nextId := by
      have : i < (add_gui_monitor st).nextId := hlt
      omega
    refine h.countGone i hlt3 ?_
    intro hall
    rcases List.mem_append.mp hall with hml | hdl
    · exact hni (List.mem_append.mpr (Or.inl hml))
    · rw [show detIds st = [] from by simp [detIds, hdn]] at hdl
      simp at hdl
  · intro i hle
    show (add_gui_monitor st).torndown.count i = 0
    rw [hfl.2.2.2.2.1]
    have : (add_gui_monitor st).nextId ≤ i := hle
    have h2 : st.nextId ≤ i := by
      rw [hfl.2.2.1] at this
      omega
    exact h.countFresh i h2

/-- The full `JM_TIMER` branch preserves the top-level invariant. -/
theorem tick_INV (procs : Nat → List Nat) (st : Sched) (h : INV st) :
    INV (mgr_timer_tick procs st) := by
  unfold mgr_timer_tick
  have h1 := tickVisit_INV procs (st.monitors.length + 1)
    (st.monitors.head?.map (·.id)) st h
  exact RINVS_timer _ h1

/-- Every top-level scheduler event preserves the invariant. -/
theorem runOp_INV (st : Sched) (op : GuiOp) (h : INV st) : INV (runOp st op) := by
  cases op with
  | add => exact add_INV st h
  | remove rid =>
      show RINVS (remove_gui_monitor st rid).nextId (remove_gui_monitor st rid)
      rw [(remove_fields st rid).2.2.2]
      exact remove_RINVS st.nextId rid st h
  | tick procs => exact tick_INV procs st h

/-- Any event sequence preserves the invariant. -/
theorem runOps_INV (ops : List GuiOp) : ∀ st : Sched, INV st →
    INV (runOps st ops) := by
  induction ops with
  | nil => intro st h; exact h
  | cons op rest ih => intro st h; exact ih (runOp st op) (runOp_INV st op h)

/-- The initial scheduler state satisfies the invariant. -/
theorem initSched_INV : INV initSched := by
  refine ⟨?_, ?_, ?_, ?_, ?_, ?_, ?_⟩
  · intro m hm; simp [initSched] at hm
  · intro d hd; simp [initSched] at hd
  · simp [allIds, monIds, detIds, initSched]
  · intro i hi; simp [allIds, monIds, detIds, initSched] at hi
  · intro i hi; simp [allIds, monIds, detIds, initSched] at hi
  · intro i hlt _
    exact absurd hlt (by simp [initSched])
  · intro i _; simp [initSched]

/-- A removed monitor stays removed across any removal request, which also
never touches the poll log. -/
theorem remove_absent (mid rid : Nat) (st : Sched) (h : absentP mid st) :
    absentP mid (remove_gui_monitor st rid) := by
  obtain ⟨hlt, hmon, hdet⟩ := h
  cases hf : st.monitors.find? (fun m => m.id = rid) with
  | none => rw [remove_eq_none hf]; exact ⟨hlt, hmon, hdet⟩
  | some m =>
    have hmemm : m ∈ st.monitors := List.mem_of_find?_eq_some hf
    have hmne : m.id ≠ mid := fun he =>
      hmon (he ▸ List.mem_map.mpr ⟨m, hmemm, rfl⟩)
    have hmon2 : mid ∉ (eraseById st.monitors rid).map (fun m : Mon => m.id) :=
      fun hm2 => by
        obtain ⟨m2, hm2m, he2⟩ := List.mem_map.mp hm2
        exact hmon (he2 ▸ List.mem_map.mpr
          ⟨m2, (eraseById_sublist st.monitors rid).subset hm2m, rfl⟩)
    by_cases hl : m.lock = false
    · rw [remove_eq_unlocked hf hl]
      exact ⟨hlt, hmon2, hdet⟩
    · have hlk : m.lock = true := by
        cases hmlk : m.lock
        · exact absurd hmlk hl
        · rfl
      rw [remove_eq_locked hf hlk]
      refine ⟨hlt, hmon2, ?_⟩
      intro hd2
      have hd3 : mid ∈ (st.detached ++ [{ m with deleted := true }]).map
          (fun d : Mon => d.id) := hd2
      rw [List.map_append] at hd3
      rcases List.mem_append.mp hd3 with h1 | h2
      · exact hdet h1
      · have h3 : mid = m.id := by simpa using h2
        exact hmne h3.symm

theorem runRemovals_absent (mid : Nat) (reqs : List Nat) : ∀ st : Sched,
    absentP mid st → absentP mid (runRemovals reqs st) := by
  induction reqs with
  | nil => intro st h; exact h
  | cons r rest ih =>
      intro st h
      exact ih (remove_gui_monitor st r) (remove_absent mid r st h)

theorem setLock_absent (mid x : Nat) (b : Bool) (st : Sched) (h : absentP mid st) :
    absentP mid (setLock st x b) := by
  obtain ⟨hlt, hmon, hdet⟩ := h
  refine ⟨hlt, ?_, hdet⟩
  rw [(setLock_fields st x b).1]
  exact hmon

theorem pollFinish_absent (mid x : Nat) (b : Sched) (h : absentP mid b) :
    absentP mid (pollFinish x b) := by
  unfold pollFinish
  split
  · exact setLock_absent mid x false b h
  · split
    · split
      · obtain ⟨hlt, hmon, hdet⟩ := h
        refine ⟨hlt, hmon, ?_⟩
        intro hd2
        have hd3 : mid ∈ (eraseById b.detached x).map (fun d : Mon => d.id) := hd2
        obtain ⟨d2, hd2m, he2⟩ := List.mem_map.mp hd3
        exact hdet (he2 ▸ List.mem_map.mpr
          ⟨d2, (eraseById_sublist b.detached x).subset hd2m, rfl⟩)
      · exact h
    · exact h

/-- A `tickStep` logs exactly one poll — of the visited monitor. -/
theorem tickStep_polled (procs : Nat → List Nat) (c : Nat) (st : Sched) :
    (tickStep procs c st).polled = st.polled ++ [c] := by
  unfold tickStep
  rw [(pollFinish_fields c (runRemovals (procs c) { setLock st c true with
    polled := (setLock st c true).polled ++ [c] })).2.2.2.1]
  rw [(runRemovals_fields (procs c) { setLock st c true with
    polled := (setLock st c true).polled ++ [c] }).1]
  show (setLock st c true).polled ++ [c] = st.polled ++ [c]
  rw [(setLock_fields st c true).2.2.1]

theorem tickStep_absent (procs : Nat → List Nat) (mid c : Nat) (st : Sched)
    (h : absentP mid st) : absentP mid (tickStep procs c st) := by
  unfold tickStep
  refine pollFinish_absent mid c _ (runRemovals_absent mid (procs c) _ ?_)
  obtain ⟨hlt, hmon, hdet⟩ := setLock_absent mid c true st h
  exact ⟨hlt, hmon, hdet⟩

/-- A monitor absent when the timer iteration reaches any point is never
polled by the rest of the iteration. -/
theorem tickVisit_absent_polled (procs : Nat → List Nat) (mid : Nat) :
    ∀ (fuel : Nat) (cur : Option Nat) (st : Sched), absentP mid st →
      absentP mid (tickVisit procs fuel cur st)
      ∧ ∃ L, (tickVisit procs fuel cur st).polled = st.polled ++ L ∧ mid ∉ L := by
  intro fuel
  induction fuel with
  | zero =>
      intro cur st h
      exact ⟨h, [], by show st.polled = st.polled ++ []; simp, by simp⟩
  | succ n ih =>
      intro cur st h
      cases cur with
      | none => exact ⟨h, [], by show st.polled = st.polled ++ []; simp, by simp⟩
      | some c =>
          simp only [tickVisit]
          cases hf : st.monitors.find? (fun m => m.id = c) with
          | none => exact ⟨h, [], by show st.polled = st.polled ++ []; simp, by simp⟩
          | some m =>
              have hmemm : m ∈ st.monitors := List.mem_of_find?_eq_some hf
              have hmid : m.id = c := by simpa using List.find?_some hf
              have hcm : c ∈ monIds st := List.mem_map.mpr ⟨m, hmemm, hmid⟩
              have hcne : mid ≠ c := fun he => h.2.1 (he ▸ hcm)
              by_cases hl : m.lock = true
              · simp only [hl, if_true]
                exact ih (nextAfter st.monitors c) st h
              · simp only [hl, if_false]
                show absentP mid (tickVisit procs n (nextAfter st.monitors c)
                    (tickStep procs c st))
                  ∧ ∃ L, (tickVisit procs n (nextAfter st.monitors c)
                      (tickStep procs c st)).polled = st.polled ++ L ∧ mid ∉ L
                obtain ⟨habs, L, hL, hnL⟩ := ih (nextAfter st.monitors c)
                  (tickStep procs c st) (tickStep_absent procs mid c st h)
                refine ⟨habs, [c] ++ L, ?_, ?_⟩
                · rw [hL, tickStep_polled procs c st, List.append_assoc]
                · intro hmem2
                  rcases List.mem_append.mp hmem2 with h1 | h2
                  · exact hcne (by simpa using h1)
                  · exact hnL h2

theorem runOp_absent_polled (mid : Nat) (st : Sched) (op : GuiOp)
    (h : absentP mid st) :
    absentP mid (runOp st op)
    ∧ ∃ L, (runOp st op).polled = st.polled ++ L ∧ mid ∉ L := by
  cases op with
  | add =>
      show absentP mid (add_gui_monitor st)
        ∧ ∃ L, (add_gui_monitor st).polled = st.polled ++ L ∧ mid ∉ L
      obtain ⟨hlt, hmon, hdet⟩ := h
      have hfl := add_fields st
      refine ⟨⟨by rw [hfl.2.2.1]; omega, ?_, ?_⟩, [], by rw [hfl.2.2.2.1]; simp,
              by simp⟩
      · intro hm2
        have hm3 : mid ∈ (st.monitors ++ [(⟨st.nextId, false, false⟩ : Mon)]).map
            (fun m : Mon => m.id) := by
          rw [← hfl.1]
          exact hm2
        rw [List.map_append] at hm3
        rcases List.mem_append.mp hm3 with h1 | h2
        · exact hmon h1
        · have : mid = st.nextId := by simpa using h2
          omega
      · intro hd2
        have hd3 : mid ∈ st.detached.map (fun d : Mon => d.id) := by
          have hd4 : mid ∈ (add_gui_monitor st).detached.map (fun d : Mon => d.id) := hd2
          rw [hfl.2.1] at hd4
          exact hd4
        exact hdet hd3
  | remove rid =>
      show absentP mid (remove_gui_monitor st rid)
        ∧ ∃ L, (remove_gui_monitor st rid).polled = st.polled ++ L ∧ mid ∉ L
      exact ⟨remove_absent mid rid st h, [], by rw [(remove_fields st rid).1]; simp,
             by simp⟩
  | tick procs =>
      show absentP mid (mgr_timer_tick procs st)
        ∧ ∃ L, (mgr_timer_tick procs st).polled = st.polled ++ L ∧ mid ∉ L
      obtain ⟨habs, L, hL, hnL⟩ := tickVisit_absent_polled procs mid
        (st.monitors.length + 1) (st.monitors.head?.map (·.id)) st h
      obtain ⟨hlt, hmon, hdet⟩ := habs
      exact ⟨⟨hlt, hmon, hdet⟩, L, hL, hnL⟩

theorem runOps_absent_polled (ops2 : List GuiOp) (mid : Nat) : ∀ st : Sched,
    absentP mid st →
    absentP mid (runOps st ops2)
    ∧ ∃ L, (runOps st ops2).polled = st.polled ++ L ∧ mid ∉ L := by
  induction ops2 with
  | nil => intro st h; exact ⟨h, [], by simp [runOps], by simp⟩
  | cons op rest ih =>
      intro st h
      obtain ⟨h1, L1, hL1, hn1⟩ := runOp_absent_polled mid st op h
      obtain ⟨h2, L2, hL2, hn2⟩ := ih (runOp st op) h1
      refine ⟨h2, L1 ++ L2, ?_, ?_⟩
      · show (runOps (runOp st op) rest).polled = st.polled ++ (L1 ++ L2)
        rw [hL2, hL1, List.append_assoc]
      · intro hm2
        rcases List.mem_append.mp hm2 with ha | hb
        · exact hn1 ha
        · exact hn2 hb

/-- Under the invariant the teardown log never holds two entries for the
same monitor. -/
theorem INV_count_le_one (st : Sched) (h : INV st) (i : Nat) :
    st.torndown.count i ≤ 1 := by
  by_cases hm : i ∈ allIds st
  · rw [h.countMem i hm]
    omega
  · by_cases hlt : i < st.nextId
    · rw [h.countGone i hlt hm]
    · rw [h.countFresh i (by omega)]
      omega

/-- At top level a listed monitor is unlocked, so a removal request
destroys it immediately: its teardown is logged right there. -/
theorem remove_immediate (st : Sched) (mid : Nat) (h : INV st)
    (hm : mid ∈ monIds st) :
    (remove_gui_monitor st mid).torndown = st.torndown ++ [mid] := by
  have hs : (st.monitors.find? (fun m => m.id = mid)).isSome :=
    (find?_id_isSome_iff st.monitors mid).mpr hm
  obtain ⟨m, hf⟩ := Option.isSome_iff_exists.mp hs
  have hmemm : m ∈ st.monitors := List.mem_of_find?_eq_some hf
  have hl : m.lock = false := (INV_unlocked st h m hmemm).1
  rw [remove_eq_unlocked hf hl]

/-! ### Timer invariant -/

theorem remove_TINV (st : Sched) (rid : Nat) (h : TINV st) :
    TINV (remove_gui_monitor st rid) := by
  cases hf : st.monitors.find? (fun m => m.id = rid) with
  | none => rw [remove_eq_none hf]; exact h
  | some m =>
    have hmemm : m ∈ st.monitors := List.mem_of_find?_eq_some hf
    have hne : st.monitors ≠ [] := by
      intro he
      rw [he] at hmemm
      simp at hmemm
    have hrun : st.timerRunning = true := h.2 hne
    have key : ∀ st2 : Sched, st2.monitors = eraseById st.monitors rid →
        st2.timerRunning
          = (if (eraseById st.monitors rid).isEmpty then false else st.timerRunning) →
        TINV st2 := by
      intro st2 he ht
      constructor
      · intro hemp
        rw [ht, if_pos (by rw [← he]; simp [hemp])]
      · intro hnemp
        have : ¬ (eraseById st.monitors rid).isEmpty = true := by
          rw [← he]
          simpa [List.isEmpty_iff] using hnemp
        rw [ht, if_neg this]
        exact hrun
    by_cases hl : m.lock = false
    · rw [remove_eq_unlocked hf hl]
      exact key _ rfl rfl
    · have hlk : m.lock = true := by
        cases hmlk : m.lock
        · exact absurd hmlk hl
        · rfl
      rw [remove_eq_locked hf hlk]
      exact key _ rfl rfl

theorem runRemovals_TINV (reqs : List Nat) : ∀ st : Sched, TINV st →
    TINV (runRemovals reqs st) := by
  induction reqs with
  | nil => intro st h; exact h
  | cons r rest ih =>
      intro st h
      exact ih (remove_gui_monitor st r) (remove_TINV st r h)

theorem setLock_TINV (st : Sched) (x : Nat) (b : Bool) (h : TINV st) :
    TINV (setLock st x b) := by
  constructor
  · intro he
    have : st.monitors = [] := by
      have h2 : st.monitors.map
          (fun m => if m.id = x then { m with lock := b } else m) = [] := he
      simpa using h2
    exact h.1 this
  · intro hne
    refine h.2 ?_
    intro he
    exact hne (by show st.monitors.map _ = []; rw [he]; rfl)

theorem pollFinish_TINV (x : Nat) (b : Sched) (h : TINV b) :
    TINV (pollFinish x b) := by
  unfold pollFinish
  split
  · exact setLock_TINV b x false h
  · split
    · split
      · exact ⟨fun he => h.1 he, fun hne => h.2 hne⟩
      · exact h
    · exact h

theorem tickStep_TINV (procs : Nat → List Nat) (c : Nat) (st : Sched)
    (h : TINV st) : TINV (tickStep procs c st) := by
  unfold tickStep
  refine pollFinish_TINV c _ (runRemovals_TINV (procs c) _ ?_)
  have h2 := setLock_TINV st c true h
  exact ⟨fun he => h2.1 he, fun hne => h2.2 hne⟩

theorem tickVisit_TINV (procs : Nat → List Nat) : ∀ (fuel : Nat)
    (cur : Option Nat) (st : Sched), TINV st → TINV (tickVisit procs fuel cur st) := by
  intro fuel
  induction fuel with
  | zero => intro cur st h; exact h
  | succ n ih =>
      intro cur st h
      cases cur with
      | none => exact h
      | some c =>
          simp only [tickVisit]
          cases hf : st.monitors.find? (fun m => m.id = c) with
          | none => exact h
          | some m =>
              by_cases hl : m.lock = true
              · simp only [hl, if_true]
                exact ih (nextAfter st.monitors c) st h
              · simp only [hl, if_false]
                exact ih (nextAfter st.monitors c) (tickStep procs c st)
                  (tickStep_TINV procs c st h)

theorem runOp_TINV (st : Sched) (op : GuiOp) (h : TINV st) : TINV (runOp st op) := by
  cases op with
  | add =>
      show TINV (add_gui_monitor st)
      have hfl := add_fields st
      constructor
      · intro he
        rw [hfl.1] at he
        simp at he
      · intro _
        exact hfl.2.2.2.2.2
  | remove rid => exact remove_TINV st rid h
  | tick procs =>
      show TINV (mgr_timer_tick procs st)
      have h1 := tickVisit_TINV procs (st.monitors.length + 1)
        (st.monitors.head?.map (·.id)) st h
      have hm : (mgr_timer_tick procs st).monitors
          = (tickVisit procs (st.monitors.length + 1)
              (st.monitors.head?.map (·.id)) st).monitors := rfl
      have ht : (mgr_timer_tick procs st).timerRunning
          = (if (tickVisit procs (st.monitors.length + 1)
                  (st.monitors.head?.map (·.id)) st).monitors.isEmpty = true
             then false
             else (tickVisit procs (st.monitors.length + 1)
                  (st.monitors.head?.map (·.id)) st).timerRunning) := rfl
      constructor
      · intro he
        rw [hm] at he
        rw [ht, if_pos (by simpa [List.isEmpty_iff] using he)]
      · intro hne
        rw [hm] at hne
        rw [ht, if_neg (by simpa [List.isEmpty_iff] using hne)]
        exact h1.2 hne

theorem runOps_TINV (ops : List GuiOp) : ∀ st : Sched, TINV st →
    TINV (runOps st ops) := by
  induction ops with
  | nil => intro st h; exact h
  | cons op rest ih => intro st h; exact ih (runOp st op) (runOp_TINV st op h)

theorem initSched_TINV : TINV initSched :=
  ⟨fun _ => rfl, fun h => absurd rfl h⟩

/-- The timer id, once allocated, is never deallocated or replaced. -/
theorem runOp_timerId (st : Sched) (op : GuiOp) (k : Nat)
    (h : st.timerId = some k) : (runOp st op).timerId = some k := by
  cases op with
  | add =>
      show (add_gui_monitor st).timerId = some k
      unfold add_gui_monitor
      simp [h]
  | remove rid =>
      show (remove_gui_monitor st rid).timerId = some k
      rw [(remove_fields st rid).2.1, h]
  | tick procs =>
      show (tickVisit procs (st.monitors.length + 1)
        (st.monitors.head?.map (·.id)) st).timerId = some k
      rw [(tickVisit_fields procs _ _ st).1, h]

theorem runOps_timerId (ops : List GuiOp) : ∀ (st : Sched) (k : Nat),
    st.timerId = some k → (runOps st ops).timerId = some k := by
  induction ops with
  | nil => intro st k h; exact h
  | cons op rest ih =>
      intro st k h
      exact ih (runOp st op) k (runOp_timerId st op k h)

/-- C6 witness: tool 1 is registered but unbound; the dispatch crashes. -/
theorem c6_unbound_tool_crash_witness :
    get_keyboard_shortcut_for_tool [⟨[⟨0,7⟩], .changeTool 0⟩] 1 = none
  ∧ resolveKey [⟨[⟨0,7⟩], .changeTool 0⟩] [0, 1] 0 [] ⟨0,7⟩ = .crash := by
  have h := c6_unbound_tool_crash [⟨[⟨0,7⟩], .changeTool 0⟩] [0, 1] 0 1 [] ⟨0,7⟩
    ⟨[⟨0,7⟩], .changeTool 0⟩ 0
  refine ⟨h.1 ?_, (h.2 (by decide) (by decide)).1 ⟨1, by decide, by decide⟩⟩
  intro s' hs'
  have : s' = ⟨[⟨0,7⟩], .changeTool 0⟩ := by simpa using hs'
  rw [this]
  decide

/-! ## Claim C2: monitor removal is exact -/

/-- C2: over every sequence of scheduler events from the initial state:
(a) a removal requested for a listed (hence, at top level, not-running)
monitor destroys it immediately — its teardown is logged right there;
(b) once removal has been requested for an allocated monitor (it was
created, so its identity is below the allocation counter, and it has left
the active list — `remove_gui_monitor` erases it from the list at request
time whether or not it is running), its poll callback is never invoked
again by any further events, including timer ticks whose callbacks issue
further removals, and its teardown has run exactly once — a monitor that
removed itself from its own callback was destroyed when that callback
returned, neither losing nor duplicating the teardown;
(c) no monitor's teardown ever runs twice.  (Poll callbacks are never
re-entered: the model is the single-threaded event loop, and a visit skips
any locked monitor.) -/
theorem c2_monitor_lifecycle (ops ops2 : List GuiOp) (mid : Nat) :
    (mid ∈ monIds (runOps initSched ops) →
        (remove_gui_monitor (runOps initSched ops) mid).torndown
          = (runOps initSched ops).torndown ++ [mid])
  ∧ (mid < (runOps initSched ops).nextId → mid ∉ monIds (runOps initSched ops) →
        (∃ L, (runOps (runOps initSched ops) ops2).polled
                = (runOps initSched ops).polled ++ L ∧ mid ∉ L)
      ∧ (runOps (runOps initSched ops) ops2).torndown.count mid = 1)
  ∧ (runOps (runOps initSched ops) ops2).torndown.count mid ≤ 1 := by
  have hI1 : INV (runOps initSched ops) := runOps_INV ops initSched initSched_INV
  have hI2 : INV (runOps (runOps initSched ops) ops2) := runOps_INV ops2 _ hI1
  refine ⟨?_, ?_, INV_count_le_one _ hI2 mid⟩
  · intro hm
    exact remove_immediate _ mid hI1 hm
  · intro hlt hnm
    have hdet : mid ∉ detIds (runOps initSched ops) := by
      intro hd
      rw [detIds, INV_detached_nil _ hI1] at hd
      simp at hd
    have habs : absentP mid (runOps initSched ops) := ⟨hlt, hnm, hdet⟩
    obtain ⟨habs2, L, hL, hnL⟩ := runOps_absent_polled ops2 mid _ habs
    refine ⟨⟨L, hL, hnL⟩, ?_⟩
    refine hI2.countGone mid habs2.1 ?_
    intro hall
    rcases List.mem_append.mp hall with h1 | h2
    · exact habs2.2.1 h1
    · exact habs2.2.2 h2

/-- C2 witness: monitor 0 is added and removed at top level (immediate
teardown), and after its removal a tick never polls it while its teardown
count stays exactly one. -/
theorem c2_monitor_lifecycle_witness :
    (remove_gui_monitor (runOps initSched [.add]) 0).torndown
      = (runOps initSched [.add]).torndown ++ [0]
  ∧ (∃ L, (runOps (runOps initSched [.add, .remove 0])
            [.tick (fun _ => [])]).polled
        = (runOps initSched [.add, .remove 0]).polled ++ L ∧ 0 ∉ L)
  ∧ (runOps (runOps initSched [.add, .remove 0])
        [.tick (fun _ => [])]).torndown.count 0 = 1 := by
  have h1 := c2_monitor_lifecycle [.add] [] 0
  have h2 := c2_monitor_lifecycle [.add, .remove 0] [.tick (fun _ => [])] 0
  exact ⟨h1.1 (by decide), (h2.2.1 (by decide) (by decide)).1,
         (h2.2.1 (by decide) (by decide)).2⟩

/-! ## Claim C7: monitor timer start/stop and id reuse -/

/-- C7: after every sequence of scheduler events the recurring timer is
running exactly when the monitor set is non-empty (every add starts it,
every removal or tick that empties the set stops it); the timer id, once
allocated by the first-ever `add_gui_monitor`, is never deallocated — it
survives every further event unchanged — and a later `add_gui_monitor`
(also after all monitors were removed) allocates only if the id is still
`-1` and always restarts the timer. -/
theorem c7_timer_lifecycle (ops ops2 : List GuiOp) (k : Nat) :
    ((runOps initSched ops).monitors = [] →
        (runOps initSched ops).timerRunning = false)
  ∧ ((runOps initSched ops).monitors ≠ [] →
        (runOps initSched ops).timerRunning = true)
  ∧ ((runOps initSched ops).timerId = some k →
        (runOps (runOps initSched ops) ops2).timerId = some k)
  ∧ ((runOps initSched ops).timerId = none →
        (add_gui_monitor (runOps initSched ops)).timerId
          = some (runOps initSched ops).timerSeq)
  ∧ (add_gui_monitor (runOps initSched ops)).timerRunning = true := by
  have hT := runOps_TINV ops initSched initSched_TINV
  refine ⟨hT.1, hT.2, ?_, ?_, (add_fields (runOps initSched ops)).2.2.2.2.2⟩
  · intro h
    exact runOps_timerId ops2 (runOps initSched ops) k h
  · intro h
    unfold add_gui_monitor
    simp [h]

/-- C7 witness: add then remove stops the timer; the id allocated by the
first add survives, and a later add restarts the same timer. -/
theorem c7_timer_lifecycle_witness :
    (runOps initSched [.add, .remove 0]).timerRunning = false
  ∧ (runOps (runOps initSched [.add, .remove 0]) [GuiOp.add]).timerId = some 0
  ∧ (add_gui_monitor (runOps initSched [.add, .remove 0])).timerRunning = true := by
  have h := c7_timer_lifecycle [.add, .remove 0] [GuiOp.add] 0
  exact ⟨h.1 (by decide), h.2.2.1 (by decide), h.2.2.2.2⟩

end AseGui
